import Mathlib

/-
Verification development for a PowerPoint placeholder-filling generator
(`main.py`: deterministic word-mixing generator; `main_temp.py`: remote-model
generator with image fixup).  Python strings are modelled as lists of
characters (`Str`); the ASCII case maps model Python's `str.lower` /
`str.upper` / `str.capitalize` / `str.title` on the ASCII range, which is the
range exercised by the template tokens and the static vocabulary.
-/

set_option maxRecDepth 4000

/-- Model of a Python string: its list of characters. -/
abbrev Str := List Char

/-- Models Python `str.lower` on a single character: this is exactly the
basic-latin case map `Char.toLower`. -/
def lowChar (c : Char) : Char := c.toLower

/-- Models Python `str.upper` on a single character: this is exactly the
basic-latin case map `Char.toUpper`. -/
def upChar (c : Char) : Char := c.toUpper

/-- Models Python `str.lower` (per character). -/
def lowerStr (s : Str) : Str := s.map lowChar

/-- Models Python `sep.join(parts)` for a one-character separator `sep`. -/
def joinWith (sep : Char) : List Str → Str
  | [] => []
  | [w] => w
  | w :: v :: ws => w ++ sep :: joinWith sep (v :: ws)

/-- Models Python `s.split(sep)` for a one-character separator: split at every
occurrence of `sep`, keeping empty pieces.  The result is always nonempty. -/
def splitChar (sep : Char) : Str → List Str
  | [] => [[]]
  | c :: cs =>
    if c = sep then [] :: splitChar sep cs
    else
      match splitChar sep cs with
      | w :: ws => (c :: w) :: ws
      | [] => [[c]]

/-- Helper for `pySplit`: scans the text accumulating the current word. -/
def wordsAux : Str → Str → List Str
  | [], acc => if acc = [] then [] else [acc]
  | c :: cs, acc =>
    if c.isWhitespace then
      if acc = [] then wordsAux cs [] else acc :: wordsAux cs []
    else wordsAux cs (acc ++ [c])

/-- Models Python `s.split()` (no argument): split on runs of whitespace,
discarding empty pieces. -/
def pySplit (s : Str) : List Str := wordsAux s []

/-- Number of whitespace-separated words of a string, Python `len(s.split())`. -/
def wordCount (s : Str) : Nat := (pySplit s).length

/-- Number of newline-separated lines of a string: 0 for the empty string,
otherwise one more than the number of newline characters. -/
def numLines (s : Str) : Nat := if s = [] then 0 else (splitChar '\n' s).length

/-- Models Python `str.capitalize`: first character uppercased, the rest
lowercased. -/
def pyCapitalize : Str → Str
  | [] => []
  | c :: cs => upChar c :: cs.map lowChar

/-- Helper for `pyTitle`; the flag records whether the previous character was
alphabetic (Python: cased). -/
def pyTitleAux : Bool → Str → Str
  | _, [] => []
  | prevAlpha, c :: cs =>
    if c.isAlpha then
      (if prevAlpha then lowChar c else upChar c) :: pyTitleAux true cs
    else c :: pyTitleAux false cs

/-- Models Python `str.title`: the first alphabetic character of every
alphabetic run is uppercased, the following ones lowercased. -/
def pyTitle (s : Str) : Str := pyTitleAux false s

/-- Models Python `str.strip` (whitespace from both ends). -/
def pyStrip (s : Str) : Str :=
  ((s.dropWhile (·.isWhitespace)).reverse.dropWhile (·.isWhitespace)).reverse

/-- Appends a character to the last element of a list of words. -/
def appendToLast (c : Char) : List Str → List Str
  | [] => []
  | [w] => [w ++ [c]]
  | w :: v :: ws => w :: appendToLast c (v :: ws)

/-- A word is good when it is nonempty and contains no whitespace. -/
def GoodWord (w : Str) : Prop := w ≠ [] ∧ ∀ ch ∈ w, ¬ ch.isWhitespace = true

/-- Static suffix vocabulary of the deterministic generator
(main.py, generate_content, line 6). -/
def staticSuffix : List Str :=
  [ "intelligence".toList, "systems".toList, "automation".toList,
    "future".toList, "solutions".toList, "insights".toList,
    "tech".toList, "performance".toList, "management".toList]

/-- Word pool of the deterministic generator:
`topic.lower().split() + [static suffix words]` (main.py, generate_content). -/
def base_words (topic : Str) : List Str := pySplit (lowerStr topic) ++ staticSuffix

/-- Branch `placeholder_type == "topic"` of generate_content: `base_words[:2]`. -/
def generate_content_topic (topic : Str) : List Str := (base_words topic).take 2

/-- Branch `"title"`/`"subtitle"` of generate_content:
`words = base_words[part-1 : part-1+limit] if part > 0 else base_words[:limit]`,
then `" ".join(words[:limit]).title()`. -/
def generate_content_title (topic : Str) (part limit : Nat) : Str :=
  pyTitle (joinWith ' '
    ((if 0 < part then ((base_words topic).drop (part - 1)).take limit
      else (base_words topic).take limit).take limit))

/-- Fuel-bounded model of the loop `while len(words) < limit: words.extend(base_words)`
in the `"para"` branch.  The Python loop diverges when the pool is empty, which
never happens for `base_words` (the pool always ends with the 9 static words);
for a nonempty pool, fuel `limit` always suffices, so the model is exact. -/
def extendAux (pool : List Str) (limit : Nat) : Nat → List Str → List Str
  | 0, acc => acc
  | f + 1, acc => if acc.length < limit then extendAux pool limit f (acc ++ pool) else acc

/-- Branch `"para"` of generate_content:
`" ".join(words[:limit]).capitalize() + "."`. -/
def generate_content_para (topic : Str) (limit : Nat) : Str :=
  pyCapitalize (joinWith ' '
    ((extendAux (base_words topic) limit limit []).take limit)) ++ [ '.' ]

/-- Fuel-bounded model of the loop `while len(b) < 6: b += base_words` in the
`"bullet"` branch; one appended copy of the pool (9 or more words) always
reaches length 6, so fuel 6 is always enough for a nonempty pool. -/
def padAux (pool : List Str) : Nat → List Str → List Str
  | 0, b => b
  | f + 1, b => if b.length < 6 then padAux pool f (b ++ pool) else b

/-- The six words of bullet line `i`: `b = base_words[i:i+6]`, padded by the
while-loop, then `b[:6]`. -/
def bullet_line_words (topic : Str) (i : Nat) : List Str :=
  (padAux (base_words topic) 6 (((base_words topic).drop i).take 6)).take 6

/-- The `bullets` list of the `"bullet"` branch: one `"- "`-prefixed line per
`i in range(count)`. -/
def bullet_lines (topic : Str) (count : Nat) : List Str :=
  (List.range count).map (fun i => "- ".toList ++ joinWith ' ' (bullet_line_words topic i))

/-- Branch `"bullet"` of generate_content: `"\n".join(bullets)`. -/
def generate_content_bullet (topic : Str) (count : Nat) : Str :=
  joinWith '\n' (bullet_lines topic count)

/-- Branch `"thankumess"` of generate_content. -/
def generate_content_thankumess (topic : Str) : Str :=
  "Thank you for learning about ".toList ++ topic ++ "! We hope it was insightful.".toList

/-- Branch `"graphimage"` of generate_content. -/
def graphPlaceholderStr : Str := "[Graph Placeholder]".toList

/-- Branch `"icon"` of generate_content. -/
def iconPlaceholderStr : Str := "[Icon Placeholder]".toList

/-- Branch `"personname"` of generate_content. -/
def personNameStr : Str := "Dyizan Intern".toList

/-- Numeric value of a digit string, Python `int(ds)`. -/
def digitsToNat (ds : Str) : Nat := ds.foldl (fun n c => n * 10 + (c.toNat - 48)) 0

/-- One-character comparison used by the token patterns: case-insensitive
(re.IGNORECASE, main.py) when `ci` is true, exact otherwise (main_temp.py). -/
def charEqB (ci : Bool) (c p : Char) : Bool :=
  if ci then decide (lowChar c = lowChar p) else decide (c = p)

/-- Matches the keyword `kw` as a prefix of `s` under the comparison mode `ci`;
returns the matched characters of `s` (verbatim) and the remaining input. -/
def matchKwB (ci : Bool) : Str → Str → Option (Str × Str)
  | [], s => some ([], s)
  | _ :: _, [] => none
  | p :: ps, c :: cs =>
    if charEqB ci c p then
      match matchKwB ci ps cs with
      | some (m, r) => some (c :: m, r)
      | none => none
    else none

/-- The maximal leading digit run of a string and the rest (regex `\d+` is
greedy, and in the token patterns it is always followed by a non-digit). -/
def digitSpan : Str → (Str × Str)
  | [] => ([], [])
  | c :: cs =>
    if c.isDigit then
      match digitSpan cs with
      | (d, r) => (c :: d, r)
    else ([], c :: cs)

/-- Matches `arity` underscore-separated decimal parameters (regex
`(\d+)(_(\d+))*`): the matched characters, the parsed numbers, the rest. -/
def matchParams : Nat → Str → Option (Str × List Nat × Str)
  | 0, s => some ([], [], s)
  | 1, s =>
    match digitSpan s with
    | (d, r) => if d = [] then none else some (d, [digitsToNat d], r)
  | n + 2, s =>
    match digitSpan s with
    | (d, r) =>
      if d = [] then none else
      match r with
      | '_' :: r2 =>
        match matchParams (n + 1) r2 with
        | some (cs2, ns, r3) => some (d ++ '_' :: cs2, digitsToNat d :: ns, r3)
        | none => none
      | _ => none

/-- Matches one placeholder token `\x7b\x7bkw<params>\x7d\x7d` as a prefix of
`s`; returns the exact matched literal (regex group 0), the parsed numeric
parameters and the input after the match. -/
def matchTokenAt (ci : Bool) (kw : Str) (arity : Nat) (s : Str) :
    Option (Str × List Nat × Str) :=
  match s with
  | c1 :: c2 :: r1 =>
    if c1 = '\x7b' ∧ c2 = '\x7b' then
      match matchKwB ci kw r1 with
      | some (m, r2) =>
        match matchParams arity r2 with
        | some (ps, ns, r3) =>
          match r3 with
          | d1 :: d2 :: r4 =>
            if d1 = '\x7d' ∧ d2 = '\x7d' then
              some ('\x7b' :: '\x7b' :: (m ++ ps ++ ('\x7d' :: '\x7d' :: [])), ns, r4)
            else none
          | _ => none
        | none => none
      | none => none
    else none
  | _ => none

/-- All matches of one token pattern in a text, left to right (re.finditer /
re.search).  The scan advances one character at a time; this agrees with
finditer's skip-past-the-match behaviour because a matched literal contains
the opening brace pair only at its start (the keyword is made of letters, the
parameters of digits and underscores), so no new match can begin inside a
previous match. -/
def findMatches (ci : Bool) (kw : Str) (arity : Nat) : Str → List (Str × List Nat)
  | [] => []
  | c :: cs =>
    match matchTokenAt ci kw arity (c :: cs) with
    | some (lit, ns, _) => (lit, ns) :: findMatches ci kw arity cs
    | none => findMatches ci kw arity cs

/-- Models Python `pat in s` (substring test). -/
def isPrefB : Str → Str → Bool
  | [], _ => true
  | _ :: _, [] => false
  | p :: ps, c :: cs => decide (p = c) && isPrefB ps cs

/-- Models Python `pat in s` (substring test): some suffix of `s` starts with `pat`. -/
def containsSub (p : Str) : Str → Bool
  | [] => isPrefB p []
  | c :: cs => isPrefB p (c :: cs) || containsSub p cs

/-- Fuel-bounded model of Python `s.replace(pat, rep)` (all non-overlapping
occurrences, left to right, no rescan of the replacement).  Each step consumes
at least one character of `s`, so fuel `s.length` is always enough; `pyReplace`
below instantiates exactly that fuel, making the model exact for every
nonempty pattern (the token keys are never empty). -/
def pyReplaceAux (pat rep : Str) : Nat → Str → Str
  | 0, s => s
  | _ + 1, [] => []
  | f + 1, c :: cs =>
    if pat ≠ [] ∧ isPrefB pat (c :: cs) = true then
      rep ++ pyReplaceAux pat rep f ((c :: cs).drop pat.length)
    else c :: pyReplaceAux pat rep f cs

/-- Models Python `s.replace(pat, rep)`. -/
def pyReplace (pat rep s : Str) : Str := pyReplaceAux pat rep s.length s

/-- The two entries inserted unconditionally by generate_ppt (main.py lines
63-65): keys are the two fixed literals with X = 1, values the capitalized
topic words.  Python indexes `topic_words[0]` / `topic_words[1]` directly;
the `getD` default is never used because the list always has length 2
(see pool_topic_safety_spec). -/
def topicEntries (topic : Str) : List (Str × Str) :=
  [( "\x7b\x7btopic1_1\x7d\x7d".toList,
     pyCapitalize ((generate_content_topic topic).getD 0 [])),
   ( "\x7b\x7btopic1_2\x7d\x7d".toList,
     pyCapitalize ((generate_content_topic topic).getD 1 []))]

/-- The placeholder-map entries contributed by scanning one run text, in the
order main.py inserts them: title, subtitle, para, bullet, then the three
static patterns (whose inserted key is the canonical lowercase literal
`f"{{{{{key}}}}}"`, not the matched substring), then icon.  All pattern
matching is case-insensitive (re.IGNORECASE). -/
def scanRunEntries (topic : Str) (text : Str) : List (Str × Str) :=
  ((findMatches true ("title".toList) 3 text).map
      (fun m => (m.1, generate_content_title topic (m.2.getD 1 0) (m.2.getD 2 0))))
  ++ ((findMatches true ("subtitle".toList) 3 text).map
      (fun m => (m.1, generate_content_title topic (m.2.getD 1 0) (m.2.getD 2 0))))
  ++ ((findMatches true ("para".toList) 2 text).map
      (fun m => (m.1, generate_content_para topic (m.2.getD 1 0))))
  ++ ((findMatches true ("bullet".toList) 2 text).map
      (fun m => (m.1, generate_content_bullet topic (m.2.getD 1 0))))
  ++ (if findMatches true ("thankumess".toList) 0 text ≠ [] then
        [( "\x7b\x7bthankumess\x7d\x7d".toList, generate_content_thankumess topic)]
      else [])
  ++ (if findMatches true ("personname".toList) 0 text ≠ [] then
        [( "\x7b\x7bpersonname\x7d\x7d".toList, personNameStr)]
      else [])
  ++ (if findMatches true ("graphimage".toList) 0 text ≠ [] then
        [( "\x7b\x7bgraphimage\x7d\x7d".toList, graphPlaceholderStr)]
      else [])
  ++ ((findMatches true ("icon".toList) 1 text).map (fun m => (m.1, iconPlaceholderStr)))

/-- The exact literals the scanning pass matches in one run text (regex group
0 of every pattern match, including the case-insensitive static patterns). -/
def discoveredLits (text : Str) : List Str :=
  ((findMatches true ("title".toList) 3 text).map (·.1))
  ++ ((findMatches true ("subtitle".toList) 3 text).map (·.1))
  ++ ((findMatches true ("para".toList) 2 text).map (·.1))
  ++ ((findMatches true ("bullet".toList) 2 text).map (·.1))
  ++ ((findMatches true ("thankumess".toList) 0 text).map (·.1))
  ++ ((findMatches true ("personname".toList) 0 text).map (·.1))
  ++ ((findMatches true ("graphimage".toList) 0 text).map (·.1))
  ++ ((findMatches true ("icon".toList) 1 text).map (·.1))

/-- Insertion into the placeholder map with Python dict semantics: an existing
key is overwritten in place, a new key is appended. -/
def dictInsert (m : List (Str × Str)) (kv : Str × Str) : List (Str × Str) :=
  if m.any (fun p => decide (p.1 = kv.1)) then
    m.map (fun p => if p.1 = kv.1 then kv else p)
  else m ++ [kv]

/-- The placeholder map built by the scanning phase of generate_ppt (main.py):
the two topic entries, then the entries of every run text in traversal order. -/
def buildMap (topic : Str) (texts : List Str) : List (Str × Str) :=
  texts.foldl (fun m t => (scanRunEntries topic t).foldl dictInsert m) (topicEntries topic)

/-- The keys of a placeholder map. -/
def keysOf (m : List (Str × Str)) : List Str := m.map (·.1)

/-- A shape of the main.py document model: a text frame is a list of
paragraphs, each a list of run texts. -/
structure MShape where
  hasTextFrame : Bool
  paragraphs : List (List Str)
deriving DecidableEq

/-- The run texts of one shape, in traversal order. -/
def mshapeRuns (sh : MShape) : List Str :=
  if sh.hasTextFrame then sh.paragraphs.flatten else []

/-- All run texts of a presentation (slides of shapes), in traversal order;
this is the sequence the scanning loop of generate_ppt reads. -/
def prsRunTexts (slides : List (List MShape)) : List Str :=
  (slides.map (fun sl => (sl.map mshapeRuns).flatten)).flatten

/-- Faithful model of the run loop of replace_placeholders (main.py 48-56):
`text` is captured once from the run; each map item whose key occurs in the
captured `text` overwrites `run.text` with a replacement computed from the
captured `text`, not from the current run text. -/
def replace_placeholders_run (m : List (Str × Str)) (text : Str) : Str :=
  m.foldl (fun cur kv =>
    if containsSub kv.1 text = true then
      pyReplace kv.1 (pyReplace ("\\n".toList) ("\n".toList) kv.2) text
    else cur) text

/-- replace_placeholders over one slide: every run of every paragraph of every
shape with a text frame is rewritten by the run loop. -/
def replace_placeholders (m : List (Str × Str)) (slide : List MShape) : List MShape :=
  slide.map (fun sh =>
    if sh.hasTextFrame then
      { sh with paragraphs := sh.paragraphs.map (fun para => para.map (replace_placeholders_run m)) }
    else sh)

/-- generate_ppt (main.py): build the placeholder map by scanning every run,
then rewrite every slide with it.  (Loading and saving the .pptx file are the
external document library.) -/
def generate_ppt (topic : Str) (slides : List (List MShape)) : List (List MShape) :=
  slides.map (replace_placeholders (buildMap topic (prsRunTexts slides)))

/-- Characterization of the keys the scanning pass can insert: either a
literal that self-matches one of the five parameterized patterns, or one of
the three canonical static literals. -/
def ScannedKey (k : Str) : Prop :=
  (∃ ns, matchTokenAt true ("title".toList) 3 k = some (k, ns, []))
  ∨ (∃ ns, matchTokenAt true ("subtitle".toList) 3 k = some (k, ns, []))
  ∨ (∃ ns, matchTokenAt true ("para".toList) 2 k = some (k, ns, []))
  ∨ (∃ ns, matchTokenAt true ("bullet".toList) 2 k = some (k, ns, []))
  ∨ k = "\x7b\x7bthankumess\x7d\x7d".toList
  ∨ k = "\x7b\x7bpersonname\x7d\x7d".toList
  ∨ k = "\x7b\x7bgraphimage\x7d\x7d".toList
  ∨ (∃ ns, matchTokenAt true ("icon".toList) 1 k = some (k, ns, []))

/-- Association-list lookup with Python dict observable behaviour. -/
def lookupKey (k : Str) : List (Str × Str) → Option Str
  | [] => none
  | kv :: m => if kv.1 = k then some kv.2 else lookupKey k m

/-- Outcome of one remote generation call (main_temp.py): a successful
response body, a requests.RequestException (connection failure, HTTP error
status after raise_for_status, or the 20-second timeout), or any other
exception (e.g. a body that is not JSON, or JSON without a "response" key). -/
inductive RemoteOutcome where
  | ok (s : Str)
  | requestExc
  | otherExc
deriving DecidableEq

/-- Models generate_ollama_content (main_temp.py 18-29) over an oracle for
the HTTP call: a RequestException is caught and becomes the literal string
"Error: Could not generate content."; a successful response returns its
"response" field stripped; any other exception escapes the function
(Except.error).  The lru_cache memoization does not change the value
semantics over a pure oracle. -/
def generate_ollama_content (oracle : Str → RemoteOutcome) (prompt : Str) :
    Except Unit Str :=
  match oracle prompt with
  | RemoteOutcome.ok s => Except.ok (pyStrip s)
  | RemoteOutcome.requestExc =>
      Except.ok ("Error: Could not generate content.".toList)
  | RemoteOutcome.otherExc => Except.error ()

/-- Calls the remote model and post-processes the completion; an escaping
exception propagates unchanged. -/
def ollamaThen (oracle : Str → RemoteOutcome) (prompt : Str) (post : Str → Str) :
    Except Unit Str :=
  match generate_ollama_content oracle prompt with
  | Except.ok c => Except.ok (post c)
  | Except.error e => Except.error e

/-- Decimal rendering of a number, for the f-string prompts. -/
def natToStr (n : Nat) : Str := Nat.toDigits 10 n

/-- The base_prompt f-string of generate_content_for_placeholder. -/
def base_prompt (topic : Str) : Str :=
  "For a PowerPoint presentation on '".toList ++ topic
  ++ "', generate the following content concisely and professionally:".toList

/-- Prompt of the topic branch. -/
def topicPrompt (topic : Str) : Str :=
  base_prompt topic
  ++ " Provide exactly two single words that capture the essence of the topic, separated by a space.".toList

/-- Prompt of the title/subtitle branch. -/
def titlePrompt (topic phType : Str) (limit : Nat) : Str :=
  base_prompt topic ++ " A ".toList ++ phType
  ++ " for a slide. It must be exactly ".toList ++ natToStr limit
  ++ " words long.".toList

/-- Prompt of the paragraph branch. -/
def paraPrompt (topic : Str) (limit : Nat) : Str :=
  base_prompt topic ++ " A paragraph of approximately ".toList ++ natToStr limit
  ++ " words.".toList

/-- Prompt of the bullet branch. -/
def bulletPrompt (topic : Str) (count : Nat) : Str :=
  base_prompt topic ++ " Generate exactly ".toList ++ natToStr count
  ++ " bullet points. Each bullet point must be exactly 6 words long. Separate them with newlines.".toList

/-- Prompt of the person-name branch. -/
def personPrompt (topic : Str) : Str :=
  base_prompt topic ++ " A professional-sounding full name for the presenter.".toList

/-- Prompt of the thank-you branch (its word limit is the constant 12). -/
def thankPrompt (topic : Str) : Str :=
  base_prompt topic
  ++ " A brief thank-you message to the audience, exactly 12 words long.".toList

/-- `placeholder.split('_')[-1].replace('\x7d\x7d', '')` of the topic branch. -/
def topicPartOf (placeholder : Str) : Str :=
  pyReplace ("\x7d\x7d".toList) [] ((splitChar '_' placeholder).getLastD [])

/-- Models generate_content_for_placeholder (main_temp.py 59-118) over the
remote-call oracle.  The branch structure and order are the source's:
substring test "topic1_", then the four anchored case-sensitive re.match
patterns (the (title|subtitle) alternation tries title first), then the two
equality tests, then the fall-through returning the placeholder itself.
In the bullet branch the source strips each line twice (once in the filter,
once in the f-string); both evaluations are the same value. -/
def generate_content_for_placeholder (oracle : Str → RemoteOutcome)
    (placeholder topic : Str) : Except Unit Str :=
  if containsSub ("topic1_".toList) placeholder = true then
    ollamaThen oracle (topicPrompt topic) (fun c =>
      let words := pySplit c
      let part := topicPartOf placeholder
      if 2 ≤ words.length then
        (if part = ('1' :: []) then pyCapitalize (words.getD 0 [])
         else pyCapitalize (words.getD 1 []))
      else (if part = ('1' :: []) then "Topic".toList else "Essence".toList))
  else
    match matchTokenAt false ("title".toList) 3 placeholder with
    | some (_, ns, _) =>
        ollamaThen oracle (titlePrompt topic ("title".toList) (ns.getD 2 0))
          (fun c => pyTitle (joinWith ' ' ((pySplit c).take (ns.getD 2 0))))
    | none =>
    match matchTokenAt false ("subtitle".toList) 3 placeholder with
    | some (_, ns, _) =>
        ollamaThen oracle (titlePrompt topic ("subtitle".toList) (ns.getD 2 0))
          (fun c => pyTitle (joinWith ' ' ((pySplit c).take (ns.getD 2 0))))
    | none =>
    match matchTokenAt false ("para".toList) 2 placeholder with
    | some (_, ns, _) =>
        ollamaThen oracle (paraPrompt topic (ns.getD 1 0))
          (fun c => pyCapitalize (joinWith ' ' ((pySplit c).take (ns.getD 1 0)))
            ++ ('.' :: []))
    | none =>
    match matchTokenAt false ("bullet".toList) 2 placeholder with
    | some (_, ns, _) =>
        ollamaThen oracle (bulletPrompt topic (ns.getD 1 0))
          (fun c => joinWith '\n'
            (((((splitChar '\n' c).map pyStrip).filter (fun l => decide (l ≠ []))).map
                (fun l => "• ".toList ++ l)).take (ns.getD 1 0)))
    | none =>
    if placeholder = "\x7b\x7bpersonname\x7d\x7d".toList then
      ollamaThen oracle (personPrompt topic) (fun c => c)
    else if placeholder = "\x7b\x7bthankumess\x7d\x7d".toList then
      ollamaThen oracle (thankPrompt topic)
        (fun c => joinWith ' ' ((pySplit c).take 12))
    else Except.ok placeholder

/-- One entry of the Resolving phase of main_temp's generate_ppt (lines
154-160): the resolved value, or — when an exception escaped the resolver and
future.result() re-raised it — the original placeholder itself. -/
def resolveEntry (oracle : Str → RemoteOutcome) (ph topic : Str) : Str :=
  match generate_content_for_placeholder oracle ph topic with
  | Except.ok v => v
  | Except.error _ => ph

/-- The malformed example token of the spec. -/
def foobarTok : Str := "\x7b\x7bfoobar\x7d\x7d".toList

/-- Every key the scanning phase can produce starts with the two opening
braces followed by a character whose lowercase form is the first letter of
one of the recognized keywords (or of "topic" for the two fixed keys). -/
def KeyShape3 (k : Str) : Prop :=
  ∃ (c : Char) (rest : Str), k = '\x7b' :: '\x7b' :: c :: rest
    ∧ lowChar c ∈ ['t', 's', 'p', 'b', 'i', 'g']

/-- Occurrence count of one character in a string. -/
def countCh (c : Char) : Str → Nat
  | [] => 0
  | d :: r => (if d = c then 1 else 0) + countCh c r

/-- A shape of the main_temp.py document model for the ImageFixup pass:
text-frame flag, the text frame's full text, whether the shape is a picture,
and its bounding box in EMU. -/
structure TShape where
  hasTextFrame : Bool
  text : Str
  isPicture : Bool
  left : Int
  top : Int
  width : Int
  height : Int
deriving DecidableEq

/-- A slide: its optional title text and its shape tree in order. -/
structure TSlide where
  title : Option Str
  shapes : List TShape
deriving DecidableEq

/-- `slide.shapes.title.text if slide.has_title else f"{topic} {slide_idx}"`. -/
def slideTitleOf (topic : Str) (idx : Nat) (sl : TSlide) : Str :=
  match sl.title with
  | some t => t
  | none => topic ++ (' ' :: natToStr idx)

/-- The Pixabay query of the graph branch. -/
def graphQuery (t : Str) : Str := t ++ " data graph chart".toList

/-- The Pixabay query of the icon branch. -/
def iconQuery (t : Str) : Str := t ++ " icon".toList

/-- The picture shape that add_picture inserts: same bounding box as the
placeholder, no text frame. -/
def mkPicture (sh : TShape) : TShape :=
  { hasTextFrame := false, text := [], isPicture := true,
    left := sh.left, top := sh.top, width := sh.width, height := sh.height }

/-- `re.search(r"\x7b\x7bicon(\d+)\x7d\x7d", text)` (case-sensitive). -/
def hasIconTok (text : Str) : Bool :=
  decide (findMatches false ("icon".toList) 1 text ≠ [])

/-- One branch of the ImageFixup shape loop: when the token is present and
the image-search oracle returns a url and the fetch-and-add succeeds, one
picture is added and the shape is marked for removal; a missing url or a
fetch/add exception leaves everything unchanged. -/
def branchResult (cond : Bool) (url : Option Str) (fetchO : Str → Bool)
    (sh : TShape) : List TShape × List TShape :=
  if cond then
    match url with
    | some u => if fetchO u then ([mkPicture sh], [sh]) else ([], [])
    | none => ([], [])
  else ([], [])

/-- Processing of one shape in the ImageFixup pass (main_temp.py 183-213):
shapes without a text frame are skipped; otherwise the graph branch runs and
then the icon branch (both can fire for the same shape).  Returns the
pictures added and the removal marks of this shape. -/
def processShape (urlO : Str → Str → Str → Option Str) (fetchO : Str → Bool)
    (title : Str) (sh : TShape) : List TShape × List TShape :=
  if sh.hasTextFrame = false then ([], [])
  else
    ((branchResult (containsSub ("\x7b\x7bgraphimage\x7d\x7d".toList) sh.text)
        (urlO (graphQuery title) ("illustration".toList) ("business".toList))
        fetchO sh).1
      ++ (branchResult (hasIconTok sh.text)
        (urlO (iconQuery title) ("illustration".toList) ("computer".toList))
        fetchO sh).1,
     (branchResult (containsSub ("\x7b\x7bgraphimage\x7d\x7d".toList) sh.text)
        (urlO (graphQuery title) ("illustration".toList) ("business".toList))
        fetchO sh).2
      ++ (branchResult (hasIconTok sh.text)
        (urlO (iconQuery title) ("illustration".toList) ("computer".toList))
        fetchO sh).2)

/-- The removal loop at the end of one slide's ImageFixup pass
(main_temp.py 216-218): each entry of placeholders_to_remove is detached
from the shape tree one at a time via sp.getparent().remove(sp).  A shape
that was appended to the list twice is detached at its first occurrence; at
its second, sp.getparent() is None and the call raises AttributeError,
which nothing in generate_ppt catches.  The model removes one occurrence of
the marked value per mark and signals the exception as Except.error; lxml
removes by element identity, so the value model agrees whenever
equal-valued shapes are interchangeable (in particular on slides whose
shapes are pairwise distinct). -/
def removeMarked : List TShape → List TShape → Except Unit (List TShape)
  | shapes, [] => Except.ok shapes
  | shapes, sp :: rest =>
    if sp ∈ shapes then removeMarked (shapes.erase sp) rest
    else Except.error ()

/-- ImageFixup over one slide: pictures are appended to the shape tree in
iteration order (python-pptx appends to the end of the spTree; the added
pictures have no text frame, so visiting them in the same loop is a no-op),
the removal marks of all shapes accumulate in loop order (graph branch
before icon branch for one shape), and the removal loop then runs over the
accumulated list. -/
def processSlide (topic : Str) (urlO : Str → Str → Str → Option Str)
    (fetchO : Str → Bool) (idx : Nat) (sl : TSlide) : Except Unit TSlide :=
  match removeMarked
      (sl.shapes
        ++ ((sl.shapes.map (fun sh =>
            (processShape urlO fetchO (slideTitleOf topic idx sl) sh).1)).flatten))
      ((sl.shapes.map (fun sh =>
          (processShape urlO fetchO (slideTitleOf topic idx sl) sh).2)).flatten) with
  | Except.ok shapes => Except.ok { sl with shapes := shapes }
  | Except.error e => Except.error e

/-- The slide loop of step 3: slides are processed in index order and an
exception raised by one slide's removal loop propagates out of generate_ppt
before prs.save runs, so no output document is produced. -/
def fixupSlides (topic : Str) (urlO : Str → Str → Str → Option Str)
    (fetchO : Str → Bool) : Nat → List TSlide → Except Unit (List TSlide)
  | _, [] => Except.ok []
  | idx, sl :: rest =>
    match processSlide topic urlO fetchO idx sl with
    | Except.ok sl2 =>
      match fixupSlides topic urlO fetchO (idx + 1) rest with
      | Except.ok rest2 => Except.ok (sl2 :: rest2)
      | Except.error e => Except.error e
    | Except.error e => Except.error e

/-- The whole ImageFixup pass (step 3 of main_temp's generate_ppt). -/
def generate_ppt_images (topic : Str) (urlO : Str → Str → Str → Option Str)
    (fetchO : Str → Bool) (slides : List TSlide) : Except Unit (List TSlide) :=
  fixupSlides topic urlO fetchO 0 slides

/-- Failure of one image branch: the search returned no url, or every
returned url fails to fetch/embed. -/
def urlFetchFails (url : Option Str) (fetchO : Str → Bool) : Prop :=
  ∀ u, url = some u → fetchO u = false

theorem lowChar_not_ws {c : Char} (h : ¬ c.isWhitespace = true) :
    ¬ (lowChar c).isWhitespace = true := by
  have hd : lowChar c = if 65 ≤ c.toNat ∧ c.toNat ≤ 90 then Char.ofNat (c.toNat + 32) else c := rfl
  rw [hd]
  split
  · rename_i hr
    obtain ⟨h1, h2⟩ := hr
    interval_cases h3 : c.toNat <;> decide
  · exact h

theorem upChar_not_ws {c : Char} (h : ¬ c.isWhitespace = true) :
    ¬ (upChar c).isWhitespace = true := by
  have hd : upChar c = if 97 ≤ c.toNat ∧ c.toNat ≤ 122 then Char.ofNat (c.toNat - 32) else c := rfl
  rw [hd]
  split
  · rename_i hr
    obtain ⟨h1, h2⟩ := hr
    interval_cases h3 : c.toNat <;> decide
  · exact h

theorem wordsAux_append_word (w s acc : Str)
    (hw : ∀ ch ∈ w, ¬ ch.isWhitespace = true) :
    wordsAux (w ++ s) acc = wordsAux s (acc ++ w) := by
  induction w generalizing acc with
  | nil => simp
  | cons c w' ih =>
    have hc : ¬ c.isWhitespace = true := hw c (by simp)
    have hs : wordsAux (c :: (w' ++ s)) acc = wordsAux (w' ++ s) (acc ++ [c]) := by
      simp [wordsAux, hc]
    rw [List.cons_append, hs, ih _ (fun ch hch => hw ch (by simp [hch]))]
    simp

theorem wordsAux_space (s acc : Str) (h : acc ≠ []) :
    wordsAux (' ' :: s) acc = acc :: wordsAux s [] := by
  simp [wordsAux, h]

theorem pySplit_joinWith (ws : List Str) (h0 : ws ≠ [])
    (hg : ∀ w ∈ ws, GoodWord w) :
    pySplit (joinWith ' ' ws) = ws := by
  induction ws with
  | nil => cases h0 rfl
  | cons w ws ih =>
    obtain ⟨hne, hnw⟩ := hg w (by simp)
    cases ws with
    | nil =>
      show wordsAux (joinWith ' ' [w]) [] = [w]
      have : joinWith ' ' [w] = w ++ [] := by simp [joinWith]
      rw [this, wordsAux_append_word _ _ _ hnw]
      simp [wordsAux, hne]
    | cons v ws' =>
      show wordsAux (joinWith ' ' (w :: v :: ws')) [] = w :: v :: ws'
      have : joinWith ' ' (w :: v :: ws') = w ++ ' ' :: joinWith ' ' (v :: ws') := by
        simp [joinWith]
      rw [this, wordsAux_append_word _ _ _ hnw]
      simp only [List.nil_append]
      rw [wordsAux_space _ _ hne]
      have hrec : pySplit (joinWith ' ' (v :: ws')) = v :: ws' :=
        ih (by simp) (fun x hx => hg x (by simp [hx]))
      rw [show wordsAux (joinWith ' ' (v :: ws')) [] = pySplit (joinWith ' ' (v :: ws')) from rfl]
      rw [hrec]

theorem wordsAux_good (s : Str) : ∀ acc : Str,
    (acc ≠ [] → GoodWord acc) → ∀ w ∈ wordsAux s acc, GoodWord w := by
  induction s with
  | nil =>
    intro acc hacc w hw
    by_cases h : acc = []
    · simp [wordsAux, h] at hw
    · simp [wordsAux, h] at hw
      exact hw ▸ hacc h
  | cons c cs ih =>
    intro acc hacc w hw
    by_cases hc : c.isWhitespace = true
    · by_cases h : acc = []
      · simp [wordsAux, hc, h] at hw
        exact ih [] (by simp) w hw
      · simp [wordsAux, hc, h] at hw
        rcases hw with hw | hw
        · exact hw ▸ hacc h
        · exact ih [] (by simp) w hw
    · simp only [wordsAux, if_neg hc] at hw
      refine ih (acc ++ [c]) ?_ w hw
      intro _
      constructor
      · simp
      · intro ch hch
        rcases List.mem_append.mp hch with h1 | h1
        · exact ((hacc (by rintro rfl; simp at h1)).2) ch h1
        · simp at h1
          exact h1 ▸ hc

theorem pySplit_good (s : Str) : ∀ w ∈ pySplit s, GoodWord w :=
  wordsAux_good s [] (by simp)

theorem splitChar_ne_nil (sep : Char) (s : Str) : splitChar sep s ≠ [] := by
  cases s with
  | nil => simp [splitChar]
  | cons c cs =>
    by_cases h : c = sep
    · simp [splitChar, h]
    · simp only [splitChar, if_neg h]
      split <;> simp_all

theorem splitChar_no_sep (sep : Char) (w : Str) (h : sep ∉ w) :
    splitChar sep w = [w] := by
  induction w with
  | nil => simp [splitChar]
  | cons c cs ih =>
    have hc : ¬ c = sep := by rintro rfl; exact h (by simp)
    have := ih (fun hm => h (by simp [hm]))
    simp [splitChar, hc, this]

theorem splitChar_word_sep (sep : Char) (w rest : Str) (h : sep ∉ w) :
    splitChar sep (w ++ sep :: rest) = w :: splitChar sep rest := by
  induction w with
  | nil => simp [splitChar]
  | cons c cs ih =>
    have hc : ¬ c = sep := by rintro rfl; exact h (by simp)
    have := ih (fun hm => h (by simp [hm]))
    simp [splitChar, hc, this]

theorem splitChar_joinWith (sep : Char) (ls : List Str) (h0 : ls ≠ [])
    (h : ∀ l ∈ ls, sep ∉ l) :
    splitChar sep (joinWith sep ls) = ls := by
  induction ls with
  | nil => cases h0 rfl
  | cons w ls ih =>
    cases ls with
    | nil => simpa [joinWith] using splitChar_no_sep sep w (h w (by simp))
    | cons v ls' =>
      have hj : joinWith sep (w :: v :: ls') = w ++ sep :: joinWith sep (v :: ls') := by
        simp [joinWith]
      rw [hj, splitChar_word_sep sep _ _ (h w (by simp))]
      rw [ih (by simp) (fun x hx => h x (by simp [hx]))]

theorem joinWith_cons_ex (sep : Char) (l : Str) (ls : List Str) :
    ∃ t, joinWith sep (l :: ls) = l ++ t := by
  cases ls with
  | nil => exact ⟨[], by simp [joinWith]⟩
  | cons v ls' => exact ⟨sep :: joinWith sep (v :: ls'), by simp [joinWith]⟩

theorem map_joinWith (f : Char → Char) (sep : Char) (hf : f sep = sep)
    (ls : List Str) :
    (joinWith sep ls).map f = joinWith sep (ls.map (fun w => w.map f)) := by
  induction ls with
  | nil => simp [joinWith]
  | cons w ls ih =>
    cases ls with
    | nil => simp [joinWith]
    | cons v ls' =>
      simp only [joinWith, List.map_append, List.map_cons, hf]
      rw [ih]
      rfl

theorem joinWith_appendToLast (sep : Char) (c : Char) (ls : List Str)
    (h : ls ≠ []) :
    joinWith sep ls ++ [c] = joinWith sep (appendToLast c ls) := by
  induction ls with
  | nil => cases h rfl
  | cons w ls ih =>
    cases ls with
    | nil => simp [joinWith, appendToLast]
    | cons v ls' =>
      have hx : ∃ x xs, appendToLast c (v :: ls') = x :: xs := by
        cases ls' <;> exact ⟨_, _, rfl⟩
      obtain ⟨x, xs, hx⟩ := hx
      have h2 := ih (by simp)
      calc joinWith sep (w :: v :: ls') ++ [c]
          = w ++ sep :: (joinWith sep (v :: ls') ++ [c]) := by simp [joinWith]
        _ = w ++ sep :: joinWith sep (appendToLast c (v :: ls')) := by rw [h2]
        _ = joinWith sep (w :: appendToLast c (v :: ls')) := by rw [hx]; simp [joinWith]
        _ = joinWith sep (appendToLast c (w :: v :: ls')) := by simp [appendToLast]

theorem appendToLast_length (c : Char) (ls : List Str) :
    (appendToLast c ls).length = ls.length := by
  induction ls with
  | nil => rfl
  | cons w ls ih =>
    cases ls with
    | nil => rfl
    | cons v ls' => simp [appendToLast] at ih ⊢; exact ih

theorem appendToLast_good (c : Char) (hc : ¬ c.isWhitespace = true)
    (ls : List Str) (h : ∀ w ∈ ls, GoodWord w) :
    ∀ w ∈ appendToLast c ls, GoodWord w := by
  induction ls with
  | nil => simp [appendToLast]
  | cons w ls ih =>
    cases ls with
    | nil =>
      intro x hx
      simp [appendToLast] at hx
      subst hx
      obtain ⟨h1, h2⟩ := h w (by simp)
      refine ⟨by simp, ?_⟩
      intro ch hch
      rcases List.mem_append.mp hch with hm | hm
      · exact h2 ch hm
      · simp at hm; exact hm ▸ hc
    | cons v ls' =>
      intro x hx
      simp only [appendToLast, List.mem_cons] at hx
      rcases hx with rfl | hx
      · exact h x (by simp)
      · exact ih (fun y hy => h y (by simp [hy])) x hx

theorem pyTitleAux_length (st : Bool) (s : Str) :
    (pyTitleAux st s).length = s.length := by
  induction s generalizing st with
  | nil => rfl
  | cons c cs ih => by_cases h : c.isAlpha = true <;> simp [pyTitleAux, h, ih]

theorem pyTitleAux_append_space (a : Str) (st : Bool) (b : Str) :
    pyTitleAux st (a ++ ' ' :: b) = pyTitleAux st a ++ ' ' :: pyTitleAux false b := by
  induction a generalizing st with
  | nil => simp [pyTitleAux]
  | cons c a' ih =>
    by_cases h : c.isAlpha = true <;> simp [pyTitleAux, h, ih]

theorem pyTitle_joinWith (ws : List Str) :
    pyTitle (joinWith ' ' ws) = joinWith ' ' (ws.map pyTitle) := by
  induction ws with
  | nil => rfl
  | cons w ws ih =>
    cases ws with
    | nil => simp [joinWith]
    | cons v ws' =>
      show pyTitleAux false (w ++ ' ' :: joinWith ' ' (v :: ws'))
          = joinWith ' ' (pyTitle w :: (v :: ws').map pyTitle)
      rw [pyTitleAux_append_space]
      have : joinWith ' ' (pyTitle w :: (v :: ws').map pyTitle)
          = pyTitle w ++ ' ' :: joinWith ' ' ((v :: ws').map pyTitle) := by
        simp [joinWith]
      rw [this, ← ih]
      rfl

theorem pyTitleAux_mem_not_ws (w : Str) : ∀ st : Bool,
    (∀ ch ∈ w, ¬ ch.isWhitespace = true) →
    ∀ ch ∈ pyTitleAux st w, ¬ ch.isWhitespace = true := by
  induction w with
  | nil => intro st _ ch hch; simp [pyTitleAux] at hch
  | cons c cs ih =>
    intro st h2 ch hch
    by_cases ha : c.isAlpha = true
    · simp only [pyTitleAux, if_pos ha, List.mem_cons] at hch
      rcases hch with rfl | hch
      · cases st with
        | true => simpa using lowChar_not_ws (h2 c (by simp))
        | false => simpa using upChar_not_ws (h2 c (by simp))
      · exact ih true (fun x hx => h2 x (by simp [hx])) ch hch
    · simp only [pyTitleAux, if_neg ha, List.mem_cons] at hch
      rcases hch with rfl | hch
      · exact h2 ch (by simp)
      · exact ih false (fun x hx => h2 x (by simp [hx])) ch hch

theorem pyTitleAux_good (st : Bool) (w : Str) (h : GoodWord w) :
    GoodWord (pyTitleAux st w) := by
  obtain ⟨h1, h2⟩ := h
  constructor
  · intro hx
    have := pyTitleAux_length st w
    rw [hx] at this
    exact h1 (List.length_eq_zero.mp this.symm)
  · exact pyTitleAux_mem_not_ws w st h2

theorem pyTitle_good (w : Str) (h : GoodWord w) : GoodWord (pyTitle w) :=
  pyTitleAux_good false w h

theorem lowerStr_good (w : Str) (h : GoodWord w) : GoodWord (lowerStr w) := by
  obtain ⟨h1, h2⟩ := h
  refine ⟨by simpa [lowerStr] using h1, ?_⟩
  intro ch hch
  simp only [lowerStr, List.mem_map] at hch
  obtain ⟨d, hd, rfl⟩ := hch
  exact lowChar_not_ws (h2 d hd)

theorem pyCapitalize_good (w : Str) (h : GoodWord w) : GoodWord (pyCapitalize w) := by
  obtain ⟨h1, h2⟩ := h
  cases w with
  | nil => cases h1 rfl
  | cons c cs =>
    refine ⟨by simp [pyCapitalize], ?_⟩
    intro ch hch
    simp only [pyCapitalize, List.mem_cons, List.mem_map] at hch
    rcases hch with rfl | ⟨d, hd, rfl⟩
    · exact upChar_not_ws (h2 c (by simp))
    · exact lowChar_not_ws (h2 d (by simp [hd]))

theorem pyCapitalize_joinWith (w : Str) (ws : List Str) (hne : w ≠ []) :
    pyCapitalize (joinWith ' ' (w :: ws))
      = joinWith ' ' (pyCapitalize w :: ws.map lowerStr) := by
  cases w with
  | nil => cases hne rfl
  | cons c w' =>
    cases ws with
    | nil => simp [joinWith]
    | cons v ws' =>
      have hj : joinWith ' ' ((c :: w') :: v :: ws')
          = c :: (w' ++ ' ' :: joinWith ' ' (v :: ws')) := by
        simp [joinWith]
      rw [hj]
      show upChar c :: (w' ++ ' ' :: joinWith ' ' (v :: ws')).map lowChar
          = joinWith ' ' ((upChar c :: w'.map lowChar) :: (v :: ws').map lowerStr)
      have hsp : lowChar ' ' = ' ' := by decide
      have hrhs : joinWith ' ' ((upChar c :: w'.map lowChar) :: (v :: ws').map lowerStr)
          = (upChar c :: w'.map lowChar) ++ ' ' :: joinWith ' ' ((v :: ws').map lowerStr) := by
        simp [joinWith]
      rw [hrhs]
      simp only [List.map_append, List.map_cons, hsp, List.cons_append, List.append_assoc]
      rw [map_joinWith lowChar ' ' hsp]
      rfl

theorem mem_joinWith (sep ch : Char) (ls : List Str) (h : ch ∈ joinWith sep ls) :
    ch = sep ∨ ∃ w ∈ ls, ch ∈ w := by
  induction ls with
  | nil => simp [joinWith] at h
  | cons w ls ih =>
    cases ls with
    | nil =>
      simp only [joinWith] at h
      exact Or.inr ⟨w, by simp, h⟩
    | cons v ls' =>
      simp only [joinWith] at h
      rcases List.mem_append.mp h with h1 | h1
      · exact Or.inr ⟨w, by simp, h1⟩
      · rcases List.mem_cons.mp h1 with rfl | h1
        · exact Or.inl rfl
        · rcases ih h1 with h2 | ⟨x, hx, hc⟩
          · exact Or.inl h2
          · exact Or.inr ⟨x, by simp [hx], hc⟩

theorem staticSuffix_good : ∀ w ∈ staticSuffix, GoodWord w := by
  simp only [GoodWord]
  decide

theorem base_words_good (topic : Str) : ∀ w ∈ base_words topic, GoodWord w := by
  intro w hw
  rcases List.mem_append.mp hw with h | h
  · exact pySplit_good _ w h
  · exact staticSuffix_good w h

theorem base_words_length (topic : Str) : 9 ≤ (base_words topic).length := by
  simp [base_words, staticSuffix]

theorem base_words_ne_nil (topic : Str) : base_words topic ≠ [] := by
  intro h
  have := base_words_length topic
  rw [h] at this
  simp at this

theorem extendAux_length (pool : List Str) (limit : Nat) (hp : pool ≠ []) :
    ∀ (f : Nat) (acc : List Str), limit ≤ acc.length + f →
    limit ≤ (extendAux pool limit f acc).length := by
  intro f
  induction f with
  | zero => intro acc h; simpa [extendAux] using h
  | succ f ih =>
    intro acc h
    simp only [extendAux]
    split
    · refine ih (acc ++ pool) ?_
      have : 1 ≤ pool.length := List.length_pos.mpr hp
      simp only [List.length_append]
      omega
    · omega

theorem extendAux_mem (pool : List Str) (limit : Nat) :
    ∀ (f : Nat) (acc : List Str) (w : Str), w ∈ extendAux pool limit f acc →
    w ∈ acc ∨ w ∈ pool := by
  intro f
  induction f with
  | zero => intro acc w h; exact Or.inl (by simpa [extendAux] using h)
  | succ f ih =>
    intro acc w h
    simp only [extendAux] at h
    split at h
    · rcases ih (acc ++ pool) w h with h1 | h1
      · rcases List.mem_append.mp h1 with h2 | h2
        · exact Or.inl h2
        · exact Or.inr h2
      · exact Or.inr h1
    · exact Or.inl h

theorem padAux_eq (pool : List Str) (hp : 6 ≤ pool.length) (f : Nat) (b : List Str) :
    padAux pool (f + 1) b = if b.length < 6 then b ++ pool else b := by
  simp only [padAux]
  split
  · cases f with
    | zero => rfl
    | succ g =>
      simp only [padAux]
      rw [if_neg]
      simp only [List.length_append]
      omega
  · rfl

theorem bullet_line_words_length (topic : Str) (i : Nat) :
    (bullet_line_words topic i).length = 6 := by
  unfold bullet_line_words
  rw [padAux_eq _ (by have := base_words_length topic; omega) 5]
  split
  · rename_i h
    simp only [List.length_take, List.length_append]
    have := base_words_length topic
    omega
  · rename_i h
    simp only [List.take_take, Nat.min_self, List.length_take] at h ⊢
    omega

theorem bullet_line_words_mem (topic : Str) (i : Nat) :
    ∀ w ∈ bullet_line_words topic i, w ∈ base_words topic := by
  intro w hw
  unfold bullet_line_words at hw
  have hw2 := List.mem_of_mem_take hw
  rw [padAux_eq _ (by have := base_words_length topic; omega) 5] at hw2
  have hsub : ∀ x ∈ ((base_words topic).drop i).take 6, x ∈ base_words topic := by
    intro x hx
    exact List.mem_of_mem_drop (List.mem_of_mem_take hx)
  split at hw2
  · rcases List.mem_append.mp hw2 with h1 | h1
    · exact hsub w h1
    · exact h1
  · exact hsub w hw2

/-- Claim C10: for every topic string the deterministic pool ends with the 9
static suffix words and hence has at least 9 entries; the topic resolution
`base_words[:2]` therefore always yields exactly two words, the accesses
`topic_words[0]` and `topic_words[1]` in generate_ppt are in bounds, and for a
topic with fewer than two words the second word comes from the static
vocabulary. -/
theorem pool_topic_safety_spec (topic : Str) :
    staticSuffix <:+ base_words topic
    ∧ 9 ≤ (base_words topic).length
    ∧ (generate_content_topic topic).length = 2
    ∧ 1 < (generate_content_topic topic).length
    ∧ ((pySplit (lowerStr topic)).length < 2 →
        (generate_content_topic topic).getD 1 [] ∈ staticSuffix) := by
  have h2 : (generate_content_topic topic).length = 2 := by
    simp only [generate_content_topic, List.length_take]
    have := base_words_length topic
    omega
  refine ⟨⟨pySplit (lowerStr topic), rfl⟩, base_words_length topic, h2, by omega, ?_⟩
  intro h
  match hsplit : pySplit (lowerStr topic) with
  | [] =>
    simp [generate_content_topic, base_words, hsplit, staticSuffix]
  | [w] =>
    simp [generate_content_topic, base_words, hsplit, staticSuffix]
  | w :: v :: ws =>
    rw [hsplit] at h
    simp only [List.length_cons] at h
    omega

/-- Witness for pool_topic_safety_spec at the one-word topic "cloud". -/
theorem pool_topic_safety_spec_witness :
    (pySplit (lowerStr ("cloud".toList))).length < 2
    ∧ (generate_content_topic ("cloud".toList)).getD 1 [] ∈ staticSuffix :=
  ⟨by decide, (pool_topic_safety_spec ("cloud".toList)).2.2.2.2 (by decide)⟩

/-- Claim C3: a title or subtitle token resolves to the window of `limit` pool
words starting at index `max(part-1, 0)` (Nat subtraction `part - 1` is exactly
that), each word title-cased, joined with single spaces; the value has at most
`limit` words. -/
theorem title_window_titlecased_spec (topic : Str) (part limit : Nat) :
    generate_content_title topic part limit
      = joinWith ' ' ((((base_words topic).drop (part - 1)).take limit).map pyTitle)
    ∧ wordCount (generate_content_title topic part limit) ≤ limit := by
  have hwin : (if 0 < part then ((base_words topic).drop (part - 1)).take limit
      else (base_words topic).take limit)
      = ((base_words topic).drop (part - 1)).take limit := by
    split
    · rfl
    · rename_i h
      have hp : part = 0 := by omega
      simp [hp]
  have heq : generate_content_title topic part limit
      = joinWith ' ' ((((base_words topic).drop (part - 1)).take limit).map pyTitle) := by
    unfold generate_content_title
    rw [hwin, List.take_take, Nat.min_self, pyTitle_joinWith]
  have hgood : ∀ w ∈ (((base_words topic).drop (part - 1)).take limit).map pyTitle,
      GoodWord w := by
    intro w hw
    simp only [List.mem_map] at hw
    obtain ⟨x, hx, rfl⟩ := hw
    exact pyTitle_good x
      (base_words_good topic x (List.mem_of_mem_drop (List.mem_of_mem_take hx)))
  refine ⟨heq, ?_⟩
  by_cases hnil : (((base_words topic).drop (part - 1)).take limit).map pyTitle = []
  · rw [wordCount, heq, hnil]
    simp [joinWith, pySplit, wordsAux]
  · rw [wordCount, heq, pySplit_joinWith _ hnil hgood]
    simp only [List.length_map, List.length_take]
    omega

/-- Claim C4: a paragraph token with limit L at least 1 resolves to L pool
words (the pool repeated as needed, first L taken), space-joined, the whole
string capitalized (first character uppercased, the rest lowercased) with a
trailing period; the value has exactly L words and ends in a period. -/
theorem para_sentence_spec (topic : Str) (L : Nat) (hL : 1 ≤ L) :
    (∃ ws : List Str, ws.length = L ∧ (∀ x ∈ ws, x ∈ base_words topic) ∧
      generate_content_para topic L = pyCapitalize (joinWith ' ' ws) ++ [ '.' ])
    ∧ wordCount (generate_content_para topic L) = L
    ∧ (generate_content_para topic L).getLast? = some '.' := by
  have hlenext : L ≤ (extendAux (base_words topic) L L []).length :=
    extendAux_length (base_words topic) L (base_words_ne_nil topic) L [] (by omega)
  have hws_len : ((extendAux (base_words topic) L L []).take L).length = L := by
    simp only [List.length_take]
    omega
  have hmem : ∀ x ∈ (extendAux (base_words topic) L L []).take L, x ∈ base_words topic := by
    intro x hx
    rcases extendAux_mem (base_words topic) L L [] x (List.mem_of_mem_take hx) with h | h
    · simp at h
    · exact h
  have hgood : ∀ x ∈ (extendAux (base_words topic) L L []).take L, GoodWord x :=
    fun x hx => base_words_good topic x (hmem x hx)
  have hdef : generate_content_para topic L
      = pyCapitalize (joinWith ' ' ((extendAux (base_words topic) L L []).take L)) ++ [ '.' ] := rfl
  obtain ⟨w, ws1, hcons⟩ :
      ∃ w ws1, (extendAux (base_words topic) L L []).take L = w :: ws1 := by
    match hx : (extendAux (base_words topic) L L []).take L with
    | [] => rw [hx] at hws_len; simp at hws_len; omega
    | w :: ws1 => exact ⟨w, ws1, rfl⟩
  have hwmem : w ∈ (extendAux (base_words topic) L L []).take L := by rw [hcons]; simp
  have hwne : w ≠ [] := (hgood w hwmem).1
  refine ⟨⟨(extendAux (base_words topic) L L []).take L, hws_len, hmem, hdef⟩, ?_, ?_⟩
  · rw [wordCount, hdef, hcons, pyCapitalize_joinWith w ws1 hwne,
      joinWith_appendToLast ' ' '.' _ (by simp)]
    have hfingood : ∀ x ∈ appendToLast '.' (pyCapitalize w :: ws1.map lowerStr),
        GoodWord x := by
      apply appendToLast_good '.' (by decide)
      intro x hx
      rcases List.mem_cons.mp hx with rfl | hx
      · exact pyCapitalize_good w (hgood w hwmem)
      · simp only [List.mem_map] at hx
        obtain ⟨y, hy, rfl⟩ := hx
        exact lowerStr_good y (hgood y (by rw [hcons]; simp [hy]))
    have hfin_ne : appendToLast '.' (pyCapitalize w :: ws1.map lowerStr) ≠ [] := by
      cases ws1 <;> simp [appendToLast]
    rw [pySplit_joinWith _ hfin_ne hfingood, appendToLast_length]
    have hl2 : (w :: ws1).length = L := by rw [← hcons]; exact hws_len
    simp only [List.length_cons, List.length_map] at hl2 ⊢
    omega
  · rw [hdef]
    exact List.getLast?_concat _

/-- Witness for para_sentence_spec: the spec example, topic "cloud security"
with limit 5, produces the 5-word sentence
"Cloud security intelligence systems automation.". -/
theorem para_sentence_spec_witness :
    1 ≤ 5
    ∧ wordCount (generate_content_para ("cloud security".toList) 5) = 5
    ∧ generate_content_para ("cloud security".toList) 5
        = "Cloud security intelligence systems automation.".toList :=
  ⟨by decide, (para_sentence_spec ("cloud security".toList) 5 (by decide)).2.1, by decide⟩

theorem bullet_line_no_newline (topic : Str) (i : Nat) :
    ('\n') ∉ "- ".toList ++ joinWith ' ' (bullet_line_words topic i) := by
  intro hmem
  rcases List.mem_append.mp hmem with h | h
  · revert h
    decide
  · rcases mem_joinWith ' ' '\n' _ h with h2 | ⟨w, hw, hc⟩
    · exact absurd h2 (by decide)
    · exact (base_words_good topic w (bullet_line_words_mem topic i w hw)).2 '\n' hc
        (by decide)

/-- Claim C2: a bullet token with count Y resolves to exactly Y
newline-separated lines; line i is "- " followed by exactly 6 space-joined
words taken from the pool at offset i (with the while-loop wraparound), and
splitting the value back on newlines recovers exactly the Y lines. -/
theorem bullet_list_lines_spec (topic : Str) (Y : Nat) :
    (bullet_lines topic Y).length = Y
    ∧ numLines (generate_content_bullet topic Y) = Y
    ∧ (0 < Y → splitChar '\n' (generate_content_bullet topic Y) = bullet_lines topic Y)
    ∧ (∀ i, i < Y →
        (bullet_line_words topic i).length = 6
        ∧ (∀ x ∈ bullet_line_words topic i, x ∈ base_words topic)
        ∧ (bullet_lines topic Y).getD i []
            = "- ".toList ++ joinWith ' ' (bullet_line_words topic i)
        ∧ wordCount (joinWith ' ' (bullet_line_words topic i)) = 6) := by
  have hlen : (bullet_lines topic Y).length = Y := by simp [bullet_lines]
  have hnonl : ∀ l ∈ bullet_lines topic Y, ('\n') ∉ l := by
    intro l hl
    simp only [bullet_lines, List.mem_map] at hl
    obtain ⟨i, _, rfl⟩ := hl
    exact bullet_line_no_newline topic i
  have hsplit : 0 < Y →
      splitChar '\n' (generate_content_bullet topic Y) = bullet_lines topic Y := by
    intro hY
    unfold generate_content_bullet
    refine splitChar_joinWith '\n' _ ?_ hnonl
    intro hnil
    rw [hnil] at hlen
    simp at hlen
    omega
  refine ⟨hlen, ?_, hsplit, ?_⟩
  · by_cases hY : Y = 0
    · subst hY
      simp [numLines, generate_content_bullet, bullet_lines, joinWith, List.range]
    · have hY0 : 0 < Y := Nat.pos_of_ne_zero hY
      obtain ⟨l, ls, hcons⟩ : ∃ l ls, bullet_lines topic Y = l :: ls := by
        match hx : bullet_lines topic Y with
        | [] => rw [hx] at hlen; simp at hlen; omega
        | l :: ls => exact ⟨l, ls, rfl⟩
      have hlne : l ≠ [] := by
        have : l ∈ bullet_lines topic Y := by rw [hcons]; simp
        simp only [bullet_lines, List.mem_map] at this
        obtain ⟨i, _, hli⟩ := this
        rw [← hli]
        simp
      have hvne : generate_content_bullet topic Y ≠ [] := by
        unfold generate_content_bullet
        rw [hcons]
        obtain ⟨t, ht⟩ := joinWith_cons_ex '\n' l ls
        rw [ht]
        intro hx
        exact hlne (List.append_eq_nil.mp hx).1
      rw [numLines, if_neg hvne, hsplit hY0, hlen]
  · intro i hi
    have hgood : ∀ x ∈ bullet_line_words topic i, GoodWord x :=
      fun x hx => base_words_good topic x (bullet_line_words_mem topic i x hx)
    refine ⟨bullet_line_words_length topic i, bullet_line_words_mem topic i, ?_, ?_⟩
    · have hgd : (bullet_lines topic Y).getD i []
          = (bullet_lines topic Y).get ⟨i, by rw [hlen]; exact hi⟩ := by
        rw [List.getD_eq_getElem]
        rfl
      rw [hgd]
      simp [bullet_lines]
    · have hne : bullet_line_words topic i ≠ [] := by
        intro h
        have := bullet_line_words_length topic i
        rw [h] at this
        simp at this
      rw [wordCount, pySplit_joinWith _ hne hgood]
      exact bullet_line_words_length topic i

/-- Witness for bullet_list_lines_spec at the topic "cloud" with count 2. -/
theorem bullet_list_lines_spec_witness :
    0 < 2
    ∧ splitChar '\n' (generate_content_bullet ("cloud".toList) 2)
        = bullet_lines ("cloud".toList) 2
    ∧ (0 : Nat) < 2
    ∧ (bullet_line_words ("cloud".toList) 0).length = 6
    ∧ wordCount (joinWith ' ' (bullet_line_words ("cloud".toList) 1)) = 6 :=
  ⟨by decide,
   (bullet_list_lines_spec ("cloud".toList) 2).2.2.1 (by decide),
   by decide,
   ((bullet_list_lines_spec ("cloud".toList) 2).2.2.2 0 (by decide)).1,
   ((bullet_list_lines_spec ("cloud".toList) 2).2.2.2 1 (by decide)).2.2.2⟩

theorem isPrefB_iff (p : Str) : ∀ s : Str, isPrefB p s = true ↔ p <+: s := by
  induction p with
  | nil => intro s; simp [isPrefB]
  | cons pc pr ih =>
    intro s
    cases s with
    | nil =>
      simp only [isPrefB]
      constructor
      · intro h; cases h
      · intro h
        have := h.length_le
        simp at this
    | cons c cs =>
      simp only [isPrefB, Bool.and_eq_true, decide_eq_true_eq]
      rw [ih cs]
      constructor
      · rintro ⟨rfl, t, ht⟩
        exact ⟨t, by rw [List.cons_append, ht]⟩
      · intro h
        rcases h with ⟨t, ht⟩
        injection ht with h1 h2
        exact ⟨h1, ⟨t, h2⟩⟩

theorem containsSub_iff (p : Str) : ∀ s : Str, containsSub p s = true ↔ p <:+: s := by
  intro s
  induction s with
  | nil =>
    simp only [containsSub, isPrefB_iff]
    constructor
    · intro h; exact h.isInfix
    · intro h; exact (List.infix_nil.mp h) ▸ List.nil_prefix
  | cons c cs ih =>
    simp only [containsSub, Bool.or_eq_true, isPrefB_iff, ih]
    rw [List.infix_cons_iff]

/-- Claim C1 (code bug): in the run loop of replace_placeholders the variable
`text` is captured once and every replacement is computed from it, so when one
run contains two distinct map keys only the last-iterated key is replaced in
the final run text.  On a run "\x7b\x7bpersonname\x7d\x7d \x7b\x7bthankumess\x7d\x7d"
with topic "cloud", both keys are in the map, yet the output run still
contains the literal \x7b\x7bthankumess\x7d\x7d. -/
theorem run_replace_two_keys_bug :
    generate_ppt ("cloud".toList)
        [[⟨true, [[ "\x7b\x7bpersonname\x7d\x7d \x7b\x7bthankumess\x7d\x7d".toList]]⟩]]
      = [[⟨true, [[ "Dyizan Intern \x7b\x7bthankumess\x7d\x7d".toList]]⟩]]
    ∧ ( "\x7b\x7bthankumess\x7d\x7d".toList, generate_content_thankumess ("cloud".toList))
        ∈ buildMap ("cloud".toList)
            (prsRunTexts [[⟨true, [[ "\x7b\x7bpersonname\x7d\x7d \x7b\x7bthankumess\x7d\x7d".toList]]⟩]])
    ∧ containsSub ("\x7b\x7bthankumess\x7d\x7d".toList)
        ("Dyizan Intern \x7b\x7bthankumess\x7d\x7d".toList) = true := by
  refine ⟨by decide, by decide, by decide⟩

/-- Claim C6 (code bug): the three static patterns are matched with
re.IGNORECASE but the key inserted into the map is the canonical lowercase
literal, so a case-variant static token such as \x7b\x7bTHANKUMESS\x7d\x7d is
discovered during scanning yet gets no map entry under its own literal, and
the rewrite pass leaves it verbatim even though it was matched. -/
theorem static_token_case_mismatch_bug :
    "\x7b\x7bTHANKUMESS\x7d\x7d".toList
        ∈ discoveredLits ("\x7b\x7bTHANKUMESS\x7d\x7d".toList)
    ∧ keysOf (buildMap ("cloud".toList) [ "\x7b\x7bTHANKUMESS\x7d\x7d".toList])
        = [ "\x7b\x7btopic1_1\x7d\x7d".toList, "\x7b\x7btopic1_2\x7d\x7d".toList,
            "\x7b\x7bthankumess\x7d\x7d".toList]
    ∧ "\x7b\x7bTHANKUMESS\x7d\x7d".toList
        ∉ keysOf (buildMap ("cloud".toList) [ "\x7b\x7bTHANKUMESS\x7d\x7d".toList])
    ∧ replace_placeholders_run
          (buildMap ("cloud".toList) [ "\x7b\x7bTHANKUMESS\x7d\x7d".toList])
          ("\x7b\x7bTHANKUMESS\x7d\x7d".toList)
        = "\x7b\x7bTHANKUMESS\x7d\x7d".toList := by
  refine ⟨by decide, by decide, by decide, by decide⟩

theorem matchKwB_spec (ci : Bool) (kw : Str) : ∀ (s m r : Str),
    matchKwB ci kw s = some (m, r) →
    s = m ++ r ∧ List.Forall₂ (fun c p => charEqB ci c p = true) m kw
    ∧ ∀ t : Str, matchKwB ci kw (m ++ t) = some (m, t) := by
  induction kw with
  | nil =>
    intro s m r h
    simp only [matchKwB] at h
    injection h with h2
    cases h2
    exact ⟨rfl, List.Forall₂.nil, fun t => by simp [matchKwB]⟩
  | cons p ps ih =>
    intro s m r h
    cases s with
    | nil => simp [matchKwB] at h
    | cons c cs =>
      simp only [matchKwB] at h
      by_cases hc : charEqB ci c p = true
      · rw [if_pos hc] at h
        cases hm : matchKwB ci ps cs with
        | none => rw [hm] at h; cases h
        | some pr =>
          obtain ⟨mA, rA⟩ := pr
          rw [hm] at h
          injection h with h2
          injection h2 with ha hb
          subst ha
          subst hb
          obtain ⟨hs, hrel, hself⟩ := ih cs mA rA hm
          refine ⟨by rw [hs]; rfl, List.Forall₂.cons hc hrel, ?_⟩
          intro t
          show matchKwB ci (p :: ps) (c :: (mA ++ t)) = some (c :: mA, t)
          simp only [matchKwB, if_pos hc, hself t]
      · rw [if_neg hc] at h; cases h

theorem digitSpan_spec : ∀ (s d r : Str), digitSpan s = (d, r) →
    s = d ++ r ∧ (∀ c ∈ d, c.isDigit = true)
    ∧ (∀ (c₀ : Char) (t : Str), ¬ c₀.isDigit = true →
        digitSpan (d ++ c₀ :: t) = (d, c₀ :: t)) := by
  intro s
  induction s with
  | nil =>
    intro d r h
    simp only [digitSpan] at h
    injection h with h1 h2
    subst h1; subst h2
    exact ⟨rfl, by simp, fun c₀ t hc => by simp [digitSpan, hc]⟩
  | cons c cs ih =>
    intro d r h
    by_cases hc : c.isDigit = true
    · simp only [digitSpan, if_pos hc] at h
      cases hds : digitSpan cs with
      | mk d' r' =>
        rw [hds] at h
        injection h with h1 h2
        subst h1; subst h2
        obtain ⟨hs, hd, hrerun⟩ := ih d' r' hds
        refine ⟨by rw [hs]; rfl, ?_, ?_⟩
        · intro x hx
          rcases List.mem_cons.mp hx with rfl | hx
          · exact hc
          · exact hd x hx
        · intro c₀ t hc₀
          show digitSpan (c :: (d' ++ c₀ :: t)) = (c :: d', c₀ :: t)
          simp only [digitSpan, if_pos hc, hrerun c₀ t hc₀]
    · simp only [digitSpan, if_neg hc] at h
      injection h with h1 h2
      subst h1; subst h2
      exact ⟨rfl, by simp, fun c₀ t hc₀ => by simp [digitSpan, hc₀]⟩

theorem matchParams_spec (a : Nat) : ∀ (s ps : Str) (ns : List Nat) (r : Str),
    matchParams a s = some (ps, ns, r) →
    s = ps ++ r ∧ ∀ (c₀ : Char) (t : Str), ¬ c₀.isDigit = true →
      matchParams a (ps ++ c₀ :: t) = some (ps, ns, c₀ :: t) := by
  induction a with
  | zero =>
    intro s ps ns r h
    simp only [matchParams] at h
    injection h with h2
    cases h2
    exact ⟨rfl, fun c₀ t _ => by simp [matchParams]⟩
  | succ n ih =>
    intro s ps ns r h
    cases n with
    | zero =>
      simp only [matchParams] at h
      cases hds : digitSpan s with
      | mk d r' =>
        rw [hds] at h
        by_cases hd : d = []
        · rw [if_pos hd] at h; cases h
        · rw [if_neg hd] at h
          injection h with h2
          cases h2
          obtain ⟨hs, hdig, hrerun⟩ := digitSpan_spec s d r' hds
          refine ⟨hs, ?_⟩
          intro c₀ t hc₀
          simp only [matchParams, hrerun c₀ t hc₀, if_neg hd]
    | succ m =>
      simp only [matchParams] at h
      cases hds : digitSpan s with
      | mk d r1 =>
        rw [hds] at h
        by_cases hd : d = []
        · rw [if_pos hd] at h; cases h
        · rw [if_neg hd] at h
          obtain ⟨hs, hdig, hrerun⟩ := digitSpan_spec s d r1 hds
          cases r1 with
          | nil => simp at h
          | cons c1 r2 =>
            by_cases hc1 : c1 = '_'
            · subst hc1
              have h' : (match matchParams (m + 1) r2 with
                  | some (cs2, nsA, r3) =>
                      some (d ++ '_' :: cs2, digitsToNat d :: nsA, r3)
                  | none => none) = some (ps, ns, r) := h
              cases hrec : matchParams (m + 1) r2 with
              | none => rw [hrec] at h'; cases h'
              | some res =>
                obtain ⟨cs2, ns2, r3⟩ := res
                rw [hrec] at h'
                injection h' with h2
                injection h2 with ha hb
                subst ha
                injection hb with hb1 hb2
                subst hb1
                subst hb2
                obtain ⟨hs2, hrerun2⟩ := ih r2 cs2 ns2 r3 hrec
                constructor
                · rw [hs, hs2]
                  simp
                · intro c₀ t hc₀
                  have hstep : digitSpan ((d ++ '_' :: cs2) ++ c₀ :: t)
                      = (d, '_' :: (cs2 ++ c₀ :: t)) := by
                    have := hrerun '_' (cs2 ++ c₀ :: t) (by decide)
                    simpa [List.append_assoc] using this
                  simp only [matchParams, hstep, if_neg hd, hrerun2 c₀ t hc₀]
            · split at h
              · rename_i r2A heqA
                injection heqA with ha _
                exact absurd ha hc1
              · cases h

theorem matchTokenAt_spec (ci : Bool) (kw : Str) (arity : Nat) (s lit : Str)
    (ns : List Nat) (r : Str)
    (h : matchTokenAt ci kw arity s = some (lit, ns, r)) :
    matchTokenAt ci kw arity lit = some (lit, ns, [])
    ∧ (∀ (p : Char) (pkw : Str), kw = p :: pkw →
        ∃ (c : Char) (rest : Str), lit = '\x7b' :: '\x7b' :: c :: rest
          ∧ charEqB ci c p = true) := by
  cases s with
  | nil => simp [matchTokenAt] at h
  | cons c1 s1 =>
    cases s1 with
    | nil => simp [matchTokenAt] at h
    | cons c2 r1 =>
      simp only [matchTokenAt] at h
      by_cases hbr : c1 = '\x7b' ∧ c2 = '\x7b'
      · rw [if_pos hbr] at h
        obtain ⟨rfl, rfl⟩ := hbr
        cases hkw : matchKwB ci kw r1 with
        | none => rw [hkw] at h; cases h
        | some pr =>
          obtain ⟨m, r2⟩ := pr
          rw [hkw] at h
          dsimp only at h
          cases hps : matchParams arity r2 with
          | none => rw [hps] at h; cases h
          | some res =>
            obtain ⟨psC, nsC, r3⟩ := res
            rw [hps] at h
            dsimp only at h
            cases r3 with
            | nil => simp at h
            | cons d1 r3a =>
              cases r3a with
              | nil => simp at h
              | cons d2 r4 =>
                dsimp only at h
                by_cases hbr2 : d1 = '\x7d' ∧ d2 = '\x7d'
                · rw [if_pos hbr2] at h
                  obtain ⟨rfl, rfl⟩ := hbr2
                  injection h with h2
                  injection h2 with ha hb
                  injection hb with hb1 hb2
                  subst ha
                  subst hb1
                  subst hb2
                  obtain ⟨hsK, hrel, hselfK⟩ := matchKwB_spec ci kw r1 m r2 hkw
                  obtain ⟨hsP, hselfP⟩ :=
                    matchParams_spec arity r2 psC nsC ('\x7d' :: '\x7d' :: r4) hps
                  constructor
                  · have hk2 : matchKwB ci kw (m ++ (psC ++ ('\x7d' :: '\x7d' :: [])))
                        = some (m, psC ++ ('\x7d' :: '\x7d' :: [])) := hselfK _
                    have hp2 : matchParams arity (psC ++ '\x7d' :: ('\x7d' :: []))
                        = some (psC, nsC, '\x7d' :: ('\x7d' :: [])) :=
                      hselfP '\x7d' ('\x7d' :: []) (by decide)
                    simp only [matchTokenAt, List.append_assoc, List.cons_append, hk2]
                    rw [hp2]
                    simp
                  · intro p pkw hkweq
                    subst hkweq
                    cases hrel with
                    | cons hcp hrest =>
                      rename_i mH psH
                      exact ⟨mH, psH ++ psC ++ ('\x7d' :: '\x7d' :: []), by simp, hcp⟩
                · rw [if_neg hbr2] at h; cases h
      · rw [if_neg hbr] at h; cases h

theorem findMatches_src (ci : Bool) (kw : Str) (arity : Nat) :
    ∀ (text lit : Str) (ns : List Nat), (lit, ns) ∈ findMatches ci kw arity text →
    ∃ s r, matchTokenAt ci kw arity s = some (lit, ns, r) := by
  intro text
  induction text with
  | nil => intro lit ns h; simp [findMatches] at h
  | cons c cs ih =>
    intro lit ns h
    simp only [findMatches] at h
    cases hm : matchTokenAt ci kw arity (c :: cs) with
    | none =>
      rw [hm] at h
      exact ih lit ns h
    | some res =>
      obtain ⟨l2, ns2, r2⟩ := res
      rw [hm] at h
      rcases List.mem_cons.mp h with heq | h2
      · injection heq with he1 he2
        subst he1
        subst he2
        exact ⟨c :: cs, r2, hm⟩
      · exact ih lit ns h2

theorem pyReplaceAux_self (pat : Str) : ∀ (f : Nat) (s : Str), s.length ≤ f →
    pyReplaceAux pat pat f s = s := by
  intro f
  induction f with
  | zero =>
    intro s _
    rfl
  | succ f ih =>
    intro s h
    cases s with
    | nil => rfl
    | cons c cs =>
      simp only [pyReplaceAux]
      split
      · rename_i hcond
        obtain ⟨hne, hpref⟩ := hcond
        have hp : pat <+: (c :: cs) := (isPrefB_iff pat (c :: cs)).mp hpref
        obtain ⟨t, ht⟩ := hp
        have hdrop : (c :: cs).drop pat.length = t := by
          rw [← ht, List.drop_left]
        have hlt : t.length ≤ f := by
          have h1 : (c :: cs).length = pat.length + t.length := by
            rw [← ht]; simp
          have h2 : 1 ≤ pat.length := by
            cases pat with
            | nil => cases hne rfl
            | cons x xs => simp
          simp only [List.length_cons] at h h1
          omega
        rw [hdrop, ih t hlt, ht]
      · have : cs.length ≤ f := by
          simp only [List.length_cons] at h
          omega
        rw [ih cs this]

theorem pyReplace_self (pat s : Str) : pyReplace pat pat s = s :=
  pyReplaceAux_self pat s.length s le_rfl

theorem findMatches_self (ci : Bool) (kw : Str) (arity : Nat) (text lit : Str)
    (ns : List Nat) (h : (lit, ns) ∈ findMatches ci kw arity text) :
    matchTokenAt ci kw arity lit = some (lit, ns, []) := by
  obtain ⟨s, r, hs⟩ := findMatches_src ci kw arity text lit ns h
  exact (matchTokenAt_spec ci kw arity s lit ns r hs).1

theorem scanRunEntries_keys (topic text : Str) :
    ∀ e ∈ scanRunEntries topic text, ScannedKey e.1 := by
  intro e he
  unfold scanRunEntries at he
  rcases List.mem_append.mp he with he | he8
  rcases List.mem_append.mp he with he | he7
  rcases List.mem_append.mp he with he | he6
  rcases List.mem_append.mp he with he | he5
  rcases List.mem_append.mp he with he | he4
  rcases List.mem_append.mp he with he | he3
  rcases List.mem_append.mp he with he1 | he2
  · obtain ⟨m, hm, rfl⟩ := List.mem_map.mp he1
    exact Or.inl ⟨m.2, findMatches_self true _ 3 text m.1 m.2 (by simpa using hm)⟩
  · obtain ⟨m, hm, rfl⟩ := List.mem_map.mp he2
    exact Or.inr (Or.inl ⟨m.2, findMatches_self true _ 3 text m.1 m.2 (by simpa using hm)⟩)
  · obtain ⟨m, hm, rfl⟩ := List.mem_map.mp he3
    exact Or.inr (Or.inr (Or.inl
      ⟨m.2, findMatches_self true _ 2 text m.1 m.2 (by simpa using hm)⟩))
  · obtain ⟨m, hm, rfl⟩ := List.mem_map.mp he4
    exact Or.inr (Or.inr (Or.inr (Or.inl
      ⟨m.2, findMatches_self true _ 2 text m.1 m.2 (by simpa using hm)⟩)))
  · split at he5
    · rcases List.mem_singleton.mp he5 with rfl
      exact Or.inr (Or.inr (Or.inr (Or.inr (Or.inl rfl))))
    · cases he5
  · split at he6
    · rcases List.mem_singleton.mp he6 with rfl
      exact Or.inr (Or.inr (Or.inr (Or.inr (Or.inr (Or.inl rfl)))))
    · cases he6
  · split at he7
    · rcases List.mem_singleton.mp he7 with rfl
      exact Or.inr (Or.inr (Or.inr (Or.inr (Or.inr (Or.inr (Or.inl rfl))))))
    · cases he7
  · obtain ⟨m, hm, rfl⟩ := List.mem_map.mp he8
    exact Or.inr (Or.inr (Or.inr (Or.inr (Or.inr (Or.inr (Or.inr
      ⟨m.2, findMatches_self true _ 1 text m.1 m.2 (by simpa using hm)⟩))))))

theorem lookupKey_dictInsert_ne (m : List (Str × Str)) (kv : Str × Str) (k : Str)
    (h : kv.1 ≠ k) : lookupKey k (dictInsert m kv) = lookupKey k m := by
  unfold dictInsert
  split
  all_goals rename_i hany
  all_goals clear hany
  · induction m with
    | nil => rfl
    | cons kv2 m2 ih =>
      by_cases h2 : kv2.1 = kv.1
      · have hf : (if kv2.1 = kv.1 then kv else kv2) = kv := if_pos h2
        simp only [List.map_cons, hf, lookupKey]
        rw [if_neg h, if_neg (by rw [h2]; exact h)]
        exact ih
      · have hf : (if kv2.1 = kv.1 then kv else kv2) = kv2 := if_neg h2
        simp only [List.map_cons, hf, lookupKey]
        by_cases h3 : kv2.1 = k
        · rw [if_pos h3, if_pos h3]
        · rw [if_neg h3, if_neg h3]
          exact ih
  · induction m with
    | nil =>
      simp only [List.nil_append, lookupKey]
      rw [if_neg h]
    | cons kv2 m2 ih =>
      simp only [List.cons_append, lookupKey]
      by_cases h3 : kv2.1 = k
      · rw [if_pos h3, if_pos h3]
      · rw [if_neg h3, if_neg h3]
        exact ih

theorem lookupKey_foldl_ne (entries : List (Str × Str)) :
    ∀ (m : List (Str × Str)) (k : Str), (∀ e ∈ entries, e.1 ≠ k) →
    lookupKey k (entries.foldl dictInsert m) = lookupKey k m := by
  induction entries with
  | nil => intro m k _; rfl
  | cons e es ih =>
    intro m k h
    rw [List.foldl_cons, ih (dictInsert m e) k (fun x hx => h x (by simp [hx]))]
    exact lookupKey_dictInsert_ne m e k (h e (by simp))

theorem buildMap_lookup_stable (topic : Str) (texts : List Str) (k : Str)
    (hk : ∀ (t : Str) (e : Str × Str), e ∈ scanRunEntries topic t → e.1 ≠ k) :
    lookupKey k (buildMap topic texts) = lookupKey k (topicEntries topic) := by
  unfold buildMap
  have hgen : ∀ (ts : List Str) (m : List (Str × Str)),
      lookupKey k (ts.foldl (fun m t => (scanRunEntries topic t).foldl dictInsert m) m)
        = lookupKey k m := by
    intro ts
    induction ts with
    | nil => intro m; rfl
    | cons t ts2 ih =>
      intro m
      rw [List.foldl_cons, ih]
      exact lookupKey_foldl_ne _ m k (fun e he => hk t e he)
  exact hgen texts (topicEntries topic)

theorem not_scanned_of (k : Str)
    (h1 : matchTokenAt true ("title".toList) 3 k = none)
    (h2 : matchTokenAt true ("subtitle".toList) 3 k = none)
    (h3 : matchTokenAt true ("para".toList) 2 k = none)
    (h4 : matchTokenAt true ("bullet".toList) 2 k = none)
    (h5 : k ≠ "\x7b\x7bthankumess\x7d\x7d".toList)
    (h6 : k ≠ "\x7b\x7bpersonname\x7d\x7d".toList)
    (h7 : k ≠ "\x7b\x7bgraphimage\x7d\x7d".toList)
    (h8 : matchTokenAt true ("icon".toList) 1 k = none) :
    ¬ ScannedKey k := by
  rintro (⟨ns, h⟩ | ⟨ns, h⟩ | ⟨ns, h⟩ | ⟨ns, h⟩ | h | h | h | ⟨ns, h⟩)
  · rw [h1] at h; cases h
  · rw [h2] at h; cases h
  · rw [h3] at h; cases h
  · rw [h4] at h; cases h
  · exact h5 h
  · exact h6 h
  · exact h7 h
  · rw [h8] at h; cases h

theorem topic_map_stable (topic : Str) (texts : List Str) (k : Str)
    (hk : ¬ ScannedKey k) :
    lookupKey k (buildMap topic texts) = lookupKey k (topicEntries topic) :=
  buildMap_lookup_stable topic texts k
    (fun t e he heq => hk (heq ▸ scanRunEntries_keys topic t e he))

/-- Claim C5 (amended): in main.py only the literal X = 1 topic tokens are
resolved: for every topic and every document, the map binds
\x7b\x7btopic1_1\x7d\x7d to the first pool word capitalized and
\x7b\x7btopic1_2\x7d\x7d to the second, while a topic token with another
slide index such as \x7b\x7btopic2_1\x7d\x7d never gets a map entry; for
topic "Cloud Security" the two bound values are "Cloud" and "Security". -/
theorem topic_tokens_x1_only_spec (topic : Str) (slides : List (List MShape)) :
    lookupKey ("\x7b\x7btopic1_1\x7d\x7d".toList) (buildMap topic (prsRunTexts slides))
      = some (pyCapitalize ((generate_content_topic topic).getD 0 []))
    ∧ lookupKey ("\x7b\x7btopic1_2\x7d\x7d".toList) (buildMap topic (prsRunTexts slides))
      = some (pyCapitalize ((generate_content_topic topic).getD 1 []))
    ∧ lookupKey ("\x7b\x7btopic2_1\x7d\x7d".toList) (buildMap topic (prsRunTexts slides))
      = none
    ∧ lookupKey ("\x7b\x7btopic1_1\x7d\x7d".toList)
        (buildMap ("Cloud Security".toList) []) = some ("Cloud".toList)
    ∧ lookupKey ("\x7b\x7btopic1_2\x7d\x7d".toList)
        (buildMap ("Cloud Security".toList) []) = some ("Security".toList) := by
  refine ⟨?_, ?_, ?_, by decide, by decide⟩
  · rw [topic_map_stable topic _ _ (not_scanned_of _ (by decide) (by decide) (by decide)
      (by decide) (by decide) (by decide) (by decide) (by decide))]
    simp [topicEntries, lookupKey]
  · rw [topic_map_stable topic _ _ (not_scanned_of _ (by decide) (by decide) (by decide)
      (by decide) (by decide) (by decide) (by decide) (by decide))]
    simp [topicEntries, lookupKey]
  · rw [topic_map_stable topic _ _ (not_scanned_of _ (by decide) (by decide) (by decide)
      (by decide) (by decide) (by decide) (by decide) (by decide))]
    simp [topicEntries, lookupKey]

/-- Claim C5 counterexample: the token \x7b\x7btopic2_1\x7d\x7d (slide index
X = 2) is not recognized by main.py: on a document containing only that token
with topic "Cloud Security", the pipeline leaves the run unchanged instead of
replacing the token by "Cloud". -/
theorem topic_x2_unrecognized_cex :
    generate_ppt ("Cloud Security".toList)
        [[⟨true, [[ "\x7b\x7btopic2_1\x7d\x7d".toList]]⟩]]
      = [[⟨true, [[ "\x7b\x7btopic2_1\x7d\x7d".toList]]⟩]]
    ∧ "\x7b\x7btopic2_1\x7d\x7d".toList ≠ "Cloud".toList := ⟨by decide, by decide⟩

theorem ollamaThen_ok (oracle : Str → RemoteOutcome) (p : Str) (post : Str → Str)
    (h : oracle p ≠ RemoteOutcome.otherExc) :
    ∃ v, ollamaThen oracle p post = Except.ok v := by
  unfold ollamaThen generate_ollama_content
  cases ho : oracle p with
  | ok s => exact ⟨post (pyStrip s), rfl⟩
  | requestExc => exact ⟨post ("Error: Could not generate content.".toList), rfl⟩
  | otherExc => exact absurd ho h

theorem gcp_no_raise (oracle : Str → RemoteOutcome) (ph topic : Str)
    (h : ∀ p, oracle p ≠ RemoteOutcome.otherExc) :
    ∃ v, generate_content_for_placeholder oracle ph topic = Except.ok v := by
  unfold generate_content_for_placeholder
  repeat' split
  all_goals first
    | exact ollamaThen_ok _ _ _ (h _)
    | exact ⟨ph, rfl⟩

/-- Claim C8 counterexample: a non-request exception (for example a malformed
response body) escapes the resolver boundary: with an oracle whose every call
raises such an exception, resolving \x7b\x7bpara1_5\x7d\x7d raises out of
generate_content_for_placeholder, and the orchestrator's entry for the token
is the original token literal, not an error-tagged fallback string. -/
theorem resolver_exception_escape_cex :
    generate_content_for_placeholder (fun _ => RemoteOutcome.otherExc)
        ("\x7b\x7bpara1_5\x7d\x7d".toList) ("cloud".toList) = Except.error ()
    ∧ resolveEntry (fun _ => RemoteOutcome.otherExc)
        ("\x7b\x7bpara1_5\x7d\x7d".toList) ("cloud".toList)
      = "\x7b\x7bpara1_5\x7d\x7d".toList
    ∧ "\x7b\x7bpara1_5\x7d\x7d".toList ≠ "Error: Could not generate content.".toList := by
  refine ⟨rfl, by decide, by decide⟩

/-- Claim C8 (amended): request-level failures (network errors, HTTP error
statuses, timeouts) are caught inside the resolver, so when the oracle never
raises a non-request exception the resolver always returns a value; a
non-request failure escapes the resolver and is caught by the orchestrator,
which stores the original token literal as the entry; and for a request-level
failure of the person-name branch the entry is exactly the deterministic
fallback "Error: Could not generate content.". -/
theorem resolver_failure_entries_spec (oracle : Str → RemoteOutcome)
    (ph topic : Str) :
    ((∀ p, oracle p ≠ RemoteOutcome.otherExc) →
      ∃ v, generate_content_for_placeholder oracle ph topic = Except.ok v)
    ∧ (∀ e, generate_content_for_placeholder oracle ph topic = Except.error e →
        resolveEntry oracle ph topic = ph)
    ∧ resolveEntry (fun _ => RemoteOutcome.requestExc)
        ("\x7b\x7bpersonname\x7d\x7d".toList) topic
      = "Error: Could not generate content.".toList := by
  refine ⟨fun h => gcp_no_raise oracle ph topic h, ?_, ?_⟩
  · intro e he
    unfold resolveEntry
    rw [he]
  · rfl

/-- Witness for resolver_failure_entries_spec at an all-request-failure
oracle. -/
theorem resolver_failure_entries_spec_witness :
    (∃ v, generate_content_for_placeholder (fun _ => RemoteOutcome.requestExc)
        ("\x7b\x7bpara1_5\x7d\x7d".toList) ("cloud".toList) = Except.ok v)
    ∧ resolveEntry (fun _ => RemoteOutcome.requestExc)
        ("\x7b\x7bpersonname\x7d\x7d".toList) ("cloud".toList)
      = "Error: Could not generate content.".toList :=
  ⟨(resolver_failure_entries_spec (fun _ => RemoteOutcome.requestExc)
      ("\x7b\x7bpara1_5\x7d\x7d".toList) ("cloud".toList)).1 (fun p => by simp),
   (resolver_failure_entries_spec (fun _ => RemoteOutcome.requestExc)
      ("\x7b\x7bpersonname\x7d\x7d".toList) ("cloud".toList)).2.2⟩

theorem mem_dictInsert (m : List (Str × Str)) (kv x : Str × Str)
    (h : x ∈ dictInsert m kv) : x ∈ m ∨ x = kv := by
  unfold dictInsert at h
  split at h
  · obtain ⟨p, hp, hx⟩ := List.mem_map.mp h
    by_cases h2 : p.1 = kv.1
    · rw [if_pos h2] at hx
      exact Or.inr hx.symm
    · rw [if_neg h2] at hx
      exact Or.inl (hx ▸ hp)
  · rcases List.mem_append.mp h with h2 | h2
    · exact Or.inl h2
    · exact Or.inr (List.mem_singleton.mp h2)

theorem foldl_dictInsert_mem (entries : List (Str × Str)) :
    ∀ (m : List (Str × Str)) (x : Str × Str),
    x ∈ entries.foldl dictInsert m → x ∈ m ∨ x ∈ entries := by
  induction entries with
  | nil => intro m x h; exact Or.inl h
  | cons e es ih =>
    intro m x h
    rcases ih (dictInsert m e) x h with h2 | h2
    · rcases mem_dictInsert m e x h2 with h3 | h3
      · exact Or.inl h3
      · exact Or.inr (by simp [h3])
    · exact Or.inr (by simp [h2])

theorem buildMap_mem (topic : Str) (texts : List Str) (kv : Str × Str)
    (h : kv ∈ buildMap topic texts) :
    kv ∈ topicEntries topic ∨ ∃ t, kv ∈ scanRunEntries topic t := by
  unfold buildMap at h
  suffices hgen : ∀ (ts : List Str) (m : List (Str × Str)),
      kv ∈ ts.foldl (fun m t => (scanRunEntries topic t).foldl dictInsert m) m →
      kv ∈ m ∨ ∃ t, kv ∈ scanRunEntries topic t from hgen texts _ h
  intro ts
  induction ts with
  | nil => intro m h2; exact Or.inl h2
  | cons t ts2 ih =>
    intro m h2
    rcases ih _ h2 with h3 | h3
    · rcases foldl_dictInsert_mem _ m kv h3 with h4 | h4
      · exact Or.inl h4
      · exact Or.inr ⟨t, h4⟩
    · exact Or.inr h3

theorem shape_from_self (kw : Str) (p : Char) (pkw : Str) (hkw : kw = p :: pkw)
    (hp : lowChar p ∈ ['t', 's', 'p', 'b', 'i', 'g']) (arity : Nat) (k : Str)
    (ns : List Nat) (h : matchTokenAt true kw arity k = some (k, ns, [])) :
    KeyShape3 k := by
  obtain ⟨c, rest, hkeq, hc⟩ := (matchTokenAt_spec true kw arity k k ns [] h).2 p pkw hkw
  refine ⟨c, rest, hkeq, ?_⟩
  have hc2 : lowChar c = lowChar p := by simpa [charEqB] using hc
  rw [hc2]
  exact hp

theorem scannedKey_shape (k : Str) (h : ScannedKey k) : KeyShape3 k := by
  rcases h with ⟨ns, h⟩ | ⟨ns, h⟩ | ⟨ns, h⟩ | ⟨ns, h⟩ | h | h | h | ⟨ns, h⟩
  · exact shape_from_self _ 't' ("itle".toList) (by decide) (by decide) 3 k ns h
  · exact shape_from_self _ 's' ("ubtitle".toList) (by decide) (by decide) 3 k ns h
  · exact shape_from_self _ 'p' ("ara".toList) (by decide) (by decide) 2 k ns h
  · exact shape_from_self _ 'b' ("ullet".toList) (by decide) (by decide) 2 k ns h
  · subst h
    exact ⟨'t', "hankumess\x7d\x7d".toList, by decide, by decide⟩
  · subst h
    exact ⟨'p', "ersonname\x7d\x7d".toList, by decide, by decide⟩
  · subst h
    exact ⟨'g', "raphimage\x7d\x7d".toList, by decide, by decide⟩
  · exact shape_from_self _ 'i' ("con".toList) (by decide) (by decide) 1 k ns h

theorem buildMap_key_shape (topic : Str) (texts : List Str) :
    ∀ kv ∈ buildMap topic texts, KeyShape3 kv.1 := by
  intro kv h
  rcases buildMap_mem topic texts kv h with h2 | ⟨t, h2⟩
  · simp only [topicEntries, List.mem_cons, List.not_mem_nil, or_false] at h2
    rcases h2 with rfl | rfl
    · exact ⟨'t', "opic1_1\x7d\x7d".toList, rfl, by decide⟩
    · exact ⟨'t', "opic1_2\x7d\x7d".toList, rfl, by decide⟩
  · exact scannedKey_shape kv.1 (scanRunEntries_keys topic t kv h2)

theorem countCh_append (c : Char) (a b : Str) :
    countCh c (a ++ b) = countCh c a + countCh c b := by
  induction a with
  | nil => simp [countCh]
  | cons d r ih =>
    show (if d = c then 1 else 0) + countCh c (r ++ b)
        = ((if d = c then 1 else 0) + countCh c r) + countCh c b
    rw [ih]
    omega

theorem countCh_eq_zero (c : Char) (s : Str) : countCh c s = 0 ↔ c ∉ s := by
  induction s with
  | nil => simp [countCh]
  | cons d r ih =>
    have hx : countCh c (d :: r) = (if d = c then 1 else 0) + countCh c r := rfl
    by_cases hd : d = c
    · rw [hx, if_pos hd]
      constructor
      · intro h
        exfalso
        omega
      · intro h
        exact absurd (show c ∈ d :: r by rw [hd]; exact List.mem_cons_self c r) h
    · rw [hx, if_neg hd, Nat.zero_add, ih]
      constructor
      · intro h h2
        rcases List.mem_cons.mp h2 with h3 | h3
        · exact hd h3.symm
        · exact h h3
      · intro h h2
        exact h (List.mem_cons_of_mem d h2)

theorem brace_decomp_unique (a : Str) : ∀ (b z w : Str), '\x7b' ∉ a → '\x7b' ∉ b →
    a ++ '\x7b' :: z = b ++ '\x7b' :: w → a = b ∧ z = w := by
  induction a with
  | nil =>
    intro b z w _ hb h
    cases b with
    | nil =>
      simp only [List.nil_append] at h
      injection h with _ h2
      exact ⟨rfl, h2⟩
    | cons bc bs =>
      simp only [List.nil_append, List.cons_append] at h
      injection h with h1 _
      exact absurd (h1 ▸ List.mem_cons_self bc bs) (h1 ▸ hb)
  | cons ac as ih =>
    intro b z w ha hb h
    cases b with
    | nil =>
      simp only [List.cons_append, List.nil_append] at h
      injection h with h1 _
      exact absurd (h1 ▸ List.mem_cons_self ac as) (h1 ▸ ha)
    | cons bc bs =>
      simp only [List.cons_append] at h
      injection h with h1 h2
      obtain ⟨h3, h4⟩ := ih bs z w (fun hm => ha (by simp [hm]))
        (fun hm => hb (by simp [hm])) h2
      exact ⟨by rw [h1, h3], h4⟩

theorem keyshape_not_infix (k : Str) (hk : KeyShape3 k) (pre post : Str)
    (hpre : '\x7b' ∉ pre) (hpost : '\x7b' ∉ post) :
    ¬ (k <:+: (pre ++ foobarTok ++ post)) := by
  obtain ⟨c, rest, rfl, hc⟩ := hk
  rintro ⟨u, v, huv⟩
  have hTcnt : countCh '\x7b' (pre ++ foobarTok ++ post) = 2 := by
    rw [countCh_append, countCh_append, (countCh_eq_zero _ _).mpr hpre,
      (countCh_eq_zero _ _).mpr hpost]
    have : countCh '\x7b' foobarTok = 2 := by decide
    omega
  have h2 : countCh '\x7b' (u ++ ('\x7b' :: '\x7b' :: c :: rest) ++ v) = 2 := by
    rw [huv]; exact hTcnt
  rw [countCh_append, countCh_append] at h2
  have hk2 : 2 ≤ countCh '\x7b' ('\x7b' :: '\x7b' :: c :: rest) := by
    have hx : countCh '\x7b' ('\x7b' :: '\x7b' :: c :: rest)
        = 1 + (1 + countCh '\x7b' (c :: rest)) := by
      show (if '\x7b' = '\x7b' then 1 else 0)
          + ((if '\x7b' = '\x7b' then 1 else 0) + countCh '\x7b' (c :: rest)) = _
      rw [if_pos rfl]
    rw [hx]
    omega
  have hu : '\x7b' ∉ u := (countCh_eq_zero _ _).mp (by omega)
  have hfb : foobarTok = '\x7b' :: ('\x7b' :: 'f' :: "oobar\x7d\x7d".toList) := by decide
  have huv2 : u ++ '\x7b' :: (('\x7b' :: c :: rest) ++ v)
      = pre ++ '\x7b' :: (('\x7b' :: 'f' :: "oobar\x7d\x7d".toList) ++ post) := by
    rw [hfb] at huv
    simpa [List.append_assoc] using huv
  obtain ⟨_, htails⟩ := brace_decomp_unique u pre _ _ hu hpre huv2
  simp only [List.cons_append] at htails
  injection htails with _ h3
  injection h3 with h4 _
  rw [h4] at hc
  exact absurd hc (by decide)

theorem replace_run_no_key (m : List (Str × Str)) (text : Str)
    (h : ∀ kv ∈ m, containsSub kv.1 text = false) :
    replace_placeholders_run m text = text := by
  unfold replace_placeholders_run
  induction m with
  | nil => rfl
  | cons kv m2 ih =>
    rw [List.foldl_cons]
    have hc : (if containsSub kv.1 text = true then
        pyReplace kv.1 (pyReplace ("\\n".toList) ("\n".toList) kv.2) text
        else text) = text := by
      rw [if_neg]
      rw [h kv (by simp)]
      simp
    rw [hc]
    exact ih (fun x hx => h x (by simp [hx]))

/-- Claim C7: an unrecognized token such as \x7b\x7bfoobar\x7d\x7d is never a
map key, so the run rewrite of main.py leaves any run consisting of it (with
brace-free surroundings) character-for-character unchanged, for every topic
and every document; in main_temp.py the resolver falls through and returns
the token itself, and replacing a string by itself is the identity, so the
token likewise survives verbatim. -/
theorem unrecognized_token_untouched_spec (topic : Str) (slides : List (List MShape))
    (pre post : Str) (hpre : '\x7b' ∉ pre) (hpost : '\x7b' ∉ post) :
    replace_placeholders_run (buildMap topic (prsRunTexts slides))
        (pre ++ foobarTok ++ post)
      = pre ++ foobarTok ++ post
    ∧ (∀ (oracle : Str → RemoteOutcome) (t : Str),
        generate_content_for_placeholder oracle foobarTok t = Except.ok foobarTok)
    ∧ (∀ s : Str, pyReplace foobarTok foobarTok s = s) := by
  refine ⟨?_, fun oracle t => rfl, fun s => pyReplace_self _ s⟩
  apply replace_run_no_key
  intro kv hkv
  have hni := keyshape_not_infix kv.1 (buildMap_key_shape topic _ kv hkv) pre post hpre hpost
  by_cases hcs : containsSub kv.1 (pre ++ foobarTok ++ post) = true
  · exact absurd ((containsSub_iff _ _).mp hcs) hni
  · simpa using hcs

/-- Witness for unrecognized_token_untouched_spec on a document that contains
the malformed token itself. -/
theorem unrecognized_token_untouched_spec_witness :
    ('\x7b' ∉ ([] : Str))
    ∧ replace_placeholders_run
        (buildMap ("cloud".toList) (prsRunTexts [[⟨true, [[foobarTok]]⟩]]))
        ([] ++ foobarTok ++ []) = [] ++ foobarTok ++ [] :=
  ⟨by decide,
   (unrecognized_token_untouched_spec ("cloud".toList) [[⟨true, [[foobarTok]]⟩]]
     [] [] (by decide) (by decide)).1⟩

theorem branchResult_fst_mem (cond : Bool) (url : Option Str) (fetchO : Str → Bool)
    (sh x : TShape) (h : x ∈ (branchResult cond url fetchO sh).1) :
    x = mkPicture sh := by
  unfold branchResult at h
  repeat' split at h
  all_goals simp_all

theorem branchResult_snd_mem (cond : Bool) (url : Option Str) (fetchO : Str → Bool)
    (sh x : TShape) (h : x ∈ (branchResult cond url fetchO sh).2) :
    x = sh := by
  unfold branchResult at h
  repeat' split at h
  all_goals simp_all

theorem branchResult_success (cond : Bool) (url : Option Str) (fetchO : Str → Bool)
    (sh : TShape) (u : Str) (hc : cond = true) (hu : url = some u)
    (hf : fetchO u = true) :
    branchResult cond url fetchO sh = ([mkPicture sh], [sh]) := by
  unfold branchResult
  rw [hc, hu]
  simp [hf]

theorem branchResult_fail (cond : Bool) (url : Option Str) (fetchO : Str → Bool)
    (sh : TShape) (hfail : cond = true → urlFetchFails url fetchO) :
    (branchResult cond url fetchO sh).2 = [] := by
  unfold branchResult
  split
  · rename_i hc
    cases hu : url with
    | none => rfl
    | some u =>
      have := hfail hc u hu
      simp [this]
  · rfl

theorem processShape_fst_mem (urlO : Str → Str → Str → Option Str)
    (fetchO : Str → Bool) (title : Str) (sh x : TShape)
    (h : x ∈ (processShape urlO fetchO title sh).1) : x = mkPicture sh := by
  unfold processShape at h
  split at h
  · simp at h
  · rcases List.mem_append.mp h with h2 | h2
    · exact branchResult_fst_mem _ _ _ _ _ h2
    · exact branchResult_fst_mem _ _ _ _ _ h2

theorem processShape_snd_mem (urlO : Str → Str → Str → Option Str)
    (fetchO : Str → Bool) (title : Str) (sh x : TShape)
    (h : x ∈ (processShape urlO fetchO title sh).2) : x = sh := by
  unfold processShape at h
  split at h
  · simp at h
  · rcases List.mem_append.mp h with h2 | h2
    · exact branchResult_snd_mem _ _ _ _ _ h2
    · exact branchResult_snd_mem _ _ _ _ _ h2

theorem processShape_graph_success (urlO : Str → Str → Str → Option Str)
    (fetchO : Str → Bool) (title : Str) (sh : TShape) (u : Str)
    (htf : sh.hasTextFrame = true)
    (hgi : containsSub ("\x7b\x7bgraphimage\x7d\x7d".toList) sh.text = true)
    (hurl : urlO (graphQuery title) ("illustration".toList) ("business".toList)
      = some u)
    (hf : fetchO u = true) :
    mkPicture sh ∈ (processShape urlO fetchO title sh).1
    ∧ sh ∈ (processShape urlO fetchO title sh).2 := by
  unfold processShape
  rw [if_neg (by rw [htf]; simp)]
  rw [branchResult_success _ _ _ _ u hgi hurl hf]
  constructor <;> simp

theorem processShape_icon_success (urlO : Str → Str → Str → Option Str)
    (fetchO : Str → Bool) (title : Str) (sh : TShape) (u : Str)
    (htf : sh.hasTextFrame = true)
    (hic : hasIconTok sh.text = true)
    (hurl : urlO (iconQuery title) ("illustration".toList) ("computer".toList)
      = some u)
    (hf : fetchO u = true) :
    mkPicture sh ∈ (processShape urlO fetchO title sh).1
    ∧ sh ∈ (processShape urlO fetchO title sh).2 := by
  unfold processShape
  rw [if_neg (by rw [htf]; simp)]
  rw [branchResult_success _ _ _ _ u hic hurl hf]
  constructor <;> simp

theorem processShape_fails (urlO : Str → Str → Str → Option Str)
    (fetchO : Str → Bool) (title : Str) (sh : TShape)
    (htf : sh.hasTextFrame = true)
    (hgf : containsSub ("\x7b\x7bgraphimage\x7d\x7d".toList) sh.text = true →
      urlFetchFails (urlO (graphQuery title) ("illustration".toList)
        ("business".toList)) fetchO)
    (hif : hasIconTok sh.text = true →
      urlFetchFails (urlO (iconQuery title) ("illustration".toList)
        ("computer".toList)) fetchO) :
    (processShape urlO fetchO title sh).2 = [] := by
  unfold processShape
  rw [if_neg (by rw [htf]; simp)]
  have hg := branchResult_fail (containsSub ("\x7b\x7bgraphimage\x7d\x7d".toList) sh.text)
    (urlO (graphQuery title) ("illustration".toList) ("business".toList)) fetchO sh hgf
  have hi := branchResult_fail (hasIconTok sh.text)
    (urlO (iconQuery title) ("illustration".toList) ("computer".toList)) fetchO sh hif
  exact List.append_eq_nil.mpr ⟨hg, hi⟩

/-- Claim C9 (refuted by the dual-token crash): on the spec's example - a
slide titled "Market Trends" whose only shape holds just the graph token,
with a successful search and fetch - the pass behaves as claimed: the
output slide holds exactly the picture shape with the placeholder's
left/top/width/height and the placeholder is gone.  But a shape holding
both a graph token and an icon token, with both fetches succeeding, is
appended to the removal list twice (the two branches are independent ifs),
and the removal loop's second visit finds the element already detached
(sp.getparent() is None) and raises AttributeError: the whole ImageFixup
pass aborts instead of removing the shape and continuing, and the
presentation is never saved. -/
theorem image_fixup_dual_mark_crash :
    generate_ppt_images ("cloud".toList) (fun _ _ _ => some ("u".toList))
        (fun _ => true)
        [TSlide.mk (some ("Market Trends".toList))
          [TShape.mk true ("\x7b\x7bgraphimage\x7d\x7d".toList) false 1 2 3 4]]
      = Except.ok [TSlide.mk (some ("Market Trends".toList))
          [TShape.mk false [] true 1 2 3 4]]
    ∧ (processShape (fun _ _ _ => some ("u".toList)) (fun _ => true)
        ("Market Trends".toList)
        (TShape.mk true
          ("\x7b\x7bgraphimage\x7d\x7d \x7b\x7bicon1\x7d\x7d".toList)
          false 1 2 3 4)).2
      = [TShape.mk true
          ("\x7b\x7bgraphimage\x7d\x7d \x7b\x7bicon1\x7d\x7d".toList)
          false 1 2 3 4,
         TShape.mk true
          ("\x7b\x7bgraphimage\x7d\x7d \x7b\x7bicon1\x7d\x7d".toList)
          false 1 2 3 4]
    ∧ generate_ppt_images ("cloud".toList) (fun _ _ _ => some ("u".toList))
        (fun _ => true)
        [TSlide.mk (some ("Market Trends".toList))
          [TShape.mk true
            ("\x7b\x7bgraphimage\x7d\x7d \x7b\x7bicon1\x7d\x7d".toList)
            false 1 2 3 4]]
      = Except.error () := by
  exact ⟨rfl, rfl, rfl⟩
